import Mathlib

/-!
Shallow embedding of the core of the qri-io/qfs repository, and proofs
settling the frozen claims about it.

Scope of the embedding (all translated from the Go source under src/):

* `src/mem.go` — the in-memory content-addressed store `MemFS`: `put`,
  `Put`, `getLocal`, `Get`, `Has`, `Delete`, the `adder` (path tree `nd`,
  `AddFile`, `Finalize`, `toDir`) and `hashBytes`.
* `src/fs.go` — `PathKind` (the variant that recognises the `/mem` and
  `/map` prefixes, which is the one the current `muxfs` routes with).
* `src/muxfs/mux.go` — `Mux.Put` routing and the done-channel lifecycle.
* `src/unnamed/part_031` — `WriteWithHooks`, `hookFile.CallAndAdd`,
  `HasRequiredPaths`, and the rollback closure.
* `src/unnamed/part_026` — `Walk` (bottom-up traversal, the two-argument
  variant used by `WriteWithHooks`).

Modelling conventions:

* Go strings are `List Char` (`Str`).  All inputs of interest are ASCII,
  where Go's byte-wise lexicographic string order coincides with the
  character-wise order used here.
* Go maps are association lists with insert-or-replace (`aset`), which
  preserves the entry count on overwrite exactly as a Go map does.
* `hashBytes` in the source is base58(multihash(sha256(data))), a call
  into external libraries.  It is modelled as an injective deterministic
  encoding (a hex dump with a constant two-character lead); every proof in
  this file depends only on determinism of the digest, and every
  counterexample only on distinct digests for distinct inputs, which
  SHA-256 provides in practice.
* Concurrency: `WriteWithHooks` spawns a consumer goroutine (recording
  `merkelizedPaths`) and a producer goroutine (the walk), synchronised by
  the capacity-1 `addedCh`.  The embedding runs them under the
  deterministic schedule in which the consumer records each emitted event
  immediately (it is otherwise always blocked reading the adder channel),
  and in which the run ends at the first send on `doneCh` — i.e. the
  store is observed at the moment `WriteWithHooks` returns, writes a
  leaked goroutine may perform after that send are not part of the call.
  A receive from `addedCh` when no event is pending models as a `stuck`
  outcome (the real code deadlocks there).
-/

/-! ## Go string primitives -/

/-- Go strings, modelled as character lists. -/
abbrev Str := List Char

/-- Go `strings.Split(s, sep)` for a one-character separator.
Like Go, splitting the empty string yields `[""]` and the result is
never empty. -/
def splitSep (sep : Char) : Str → List Str
  | [] => [[]]
  | c :: rest =>
    if c = sep then [] :: splitSep sep rest
    else
      match splitSep sep rest with
      | [] => [[c]]
      | h :: t => (c :: h) :: t

/-- Boolean check that `pre` leads `s`, as Go `strings.HasPrefix`. -/
def hasPre : Str → Str → Bool
  | [], _ => true
  | _ :: _, [] => false
  | p :: ps, c :: cs => p = c && hasPre ps cs

/-- Go `strings.TrimPrefix`: drop `pre` from the front of `s` when it
leads `s`, otherwise return `s` unchanged. -/
def trimPre (pre s : Str) : Str :=
  if hasPre pre s then s.drop pre.length else s

/-- Go `filepath.Base`, restricted to slash-separated paths: `""`
maps to `"."`, trailing slashes are stripped, the last segment is
returned, and an all-slash path maps to `"/"`. -/
def goBase (p : Str) : Str :=
  if p = [] then ['.']
  else
    let q := (p.reverse.dropWhile (fun c => c = '/')).reverse
    let r := (q.reverse.takeWhile (fun c => ¬ c = '/')).reverse
    if r = [] then ['/'] else r

/-! ## Modelled digest -/

/-- One hex digit. -/
def hexDig : Nat → Char
  | 0 => '0' | 1 => '1' | 2 => '2' | 3 => '3'
  | 4 => '4' | 5 => '5' | 6 => '6' | 7 => '7'
  | 8 => '8' | 9 => '9' | 10 => 'a' | 11 => 'b'
  | 12 => 'c' | 13 => 'd' | 14 => 'e' | _ => 'f'

/-- Two hex digits for one character (codepoint mod 256). -/
def hexByte (c : Char) : Str := [hexDig (c.toNat / 16 % 16), hexDig (c.toNat % 16)]

/-- Hex dump of a string. -/
def hexOf : Str → Str
  | [] => []
  | c :: rest => hexByte c ++ hexOf rest

/-- Modelled content digest.  The source computes
base58(multihash(sha256(data))) through external libraries; the model
replaces it by a deterministic injective printable encoding that, like
the real digest, never contains a slash. -/
def hashBytes (data : Str) : Str := 'Q' :: 'm' :: hexOf data

/-! ## Association lists (Go maps) -/

/-- Lookup in an association list, first match. -/
def alookup {β : Type} (l : List (Str × β)) (k : Str) : Option β :=
  match l with
  | [] => none
  | (k', v) :: rest => if k' = k then some v else alookup rest k

/-- Insert-or-replace, as assignment to a Go map: an existing key keeps
its position and the count, a new key is appended. -/
def aset {β : Type} (l : List (Str × β)) (k : Str) (v : β) : List (Str × β) :=
  match l with
  | [] => [(k, v)]
  | (k', v') :: rest => if k' = k then (k, v) :: rest else (k', v') :: aset rest k v

/-! ## The MemFS store (src/mem.go) -/

/-- A stored object: `fsFile` or `fsDir` from src/mem.go. -/
inductive Entry
  | bytesE (name path data : Str)
  | dirE (path : Str) (files : List (Str × Str))
deriving DecidableEq

/-- `MemFS.Files`, the digest-keyed object map. -/
abbrev Store := List (Str × Entry)

/-- Lookup of a digest key. -/
def lookupStore (st : Store) (k : Str) : Option Entry := alookup st k

/-- Store assignment `m.Files[key] = entry`. -/
def insertStore (st : Store) (k : Str) (v : Entry) : Store := aset st k v

/-- Go `delete(m.Files, key)`: removes the binding, no-op when absent. -/
def deleteStore (st : Store) (k : Str) : Store :=
  st.filter (fun e => if e.1 = k then false else true)

/-- `MemFS.ObjectCount`. -/
def objectCount (st : Store) : Nat := st.length

/-- An input `File` handed to the store: a `Memfile` leaf or a `Memdir`
whose child iteration ends either in EOF or, for modelling iterator
failures, in a non-EOF error message. -/
inductive PFile
  | bytesF (path data : Str) (modTime : Nat)
  | dirF (path : Str) (children : List PFile) (endErr : Option Str)

/-- `File.FullPath()`. -/
def pfilePath : PFile → Str
  | .bytesF p _ _ => p
  | .dirF p _ _ => p

/-- `File.FileName()`, the base of the full path. -/
def pfileName (f : PFile) : Str := goBase (pfilePath f)

/-- Result of `MemFS.put`: a key and updated store, a Go error with the
store as mutated so far, or a runtime panic (nil-interface method call)
with the store as mutated so far. -/
inductive PutRes
  | okR (key : Str) (st : Store)
  | goerr (msg : Str) (st : Store)
  | crashed (st : Store)
deriving DecidableEq

mutual

/-- `MemFS.put` (src/mem.go:128).  A leaf is read, hashed and stored
under its digest.  A directory puts each child in iteration order,
accumulates `dir.files[childName] = childHash` and the newline-joined
child hashes, then hashes that buffer and stores the directory entry.
When child iteration ends in a non-EOF error, the source formats the
message with `err.Error()` where `err` is the still-nil named return —
a nil-interface method call, i.e. a runtime panic, modelled `crashed`. -/
def memPutFile (st : Store) (f : PFile) : PutRes :=
  match f with
  | .bytesF path data _ =>
    let key := hashBytes data
    .okR key (insertStore st key (.bytesE (goBase path) path data))
  | .dirF path children endErr => memPutDirLoop st path children endErr [] []

/-- The `for { file.NextFile() ... }` loop of `MemFS.put`'s directory
branch, carrying the accumulated child map and manifest buffer. -/
def memPutDirLoop (st : Store) (path : Str) (children : List PFile)
    (endErr : Option Str) (filesAcc : List (Str × Str)) (buf : Str) : PutRes :=
  match children with
  | [] =>
    match endErr with
    | none =>
      let dirhash := hashBytes buf
      .okR dirhash (insertStore st dirhash (.dirE path filesAcc))
    | some _ => .crashed st
  | ch :: rest =>
    match memPutFile st ch with
    | .okR key st' =>
      memPutDirLoop st' path rest endErr (aset filesAcc (pfileName ch) key)
        (buf ++ key ++ ['\n'])
    | .goerr e st' => .goerr ("error putting file: ".data ++ e) st'
    | .crashed st' => .crashed st'

end

/-- `MemFS.Put` (src/mem.go:123): delegate to `put` and lead the key
with `/mem/`. -/
def memPut (st : Store) (f : PFile) : PutRes :=
  match memPutFile st f with
  | .okR key st' => .okR ("/mem/".data ++ key) st'
  | .goerr e st' => .goerr e st'
  | .crashed st' => .crashed st'

/-! ## MemFS retrieval (src/mem.go getLocal / Get / Has / Delete) -/

/-- The Go error values `getLocal` and friends surface. -/
inductive GErr
  | notFound
  | notDirectory
  | wrappedNotFound (fileName hash : Str)
  | keyRequired
  | outOfFuel
deriving DecidableEq

/-- A materialised `File` as returned from the store. -/
inductive GFile
  | gBytes (path data : Str)
  | gDir (path : Str) (children : List GFile)

/-- True when the file is a directory. -/
def gIsDir : GFile → Bool
  | .gBytes _ _ => false
  | .gDir _ _ => true

/-- The contents of a byte file. -/
def gData : GFile → Str
  | .gBytes _ d => d
  | .gDir _ _ => []

/-- `filer.File()`: `fsFile` materialises as a `Memfile` over its path
and bytes; `fsDir` materialises each child entry recursively, in map
order, surfacing the first failure (a missing child digest gives the
`%w`-wrapped not-found error).  The source recursion has no cycle
guard and would loop forever on a cyclic store; the model carries fuel
(any value exceeding the store size is exact for acyclic stores) and
reports `outOfFuel` otherwise. -/
def entryFile (st : Store) : Nat → Entry → Except GErr GFile
  | _, .bytesE _ path data => .ok (.gBytes path data)
  | 0, .dirE _ _ => .error .outOfFuel
  | fuel + 1, .dirE path files =>
    match
      files.foldr
        (fun nh (acc : Except GErr (List GFile)) =>
          match lookupStore st nh.2 with
          | none => Except.error (.wrappedNotFound nh.1 nh.2)
          | some e =>
            match entryFile st fuel e with
            | .error er => Except.error er
            | .ok f =>
              match acc with
              | .error er => Except.error er
              | .ok fs => Except.ok (f :: fs))
        (Except.ok ([] : List GFile)) with
    | .ok cs => .ok (.gDir path cs)
    | .error e => .error e

/-- The descent loop of `MemFS.getLocal`: consume one remaining path
part per step; descending into a byte entry is `ErrNotDirectory`, a
missing child is `ErrNotFound` (a name absent from the child map reads
as the empty digest, which is never a store key). -/
def descend (st : Store) (e : Entry) : List Str → Except GErr Entry
  | [] => .ok e
  | part :: rest =>
    match e with
    | .bytesE .. => .error .notDirectory
    | .dirE _ files =>
      let h := (alookup files part).getD []
      match lookupStore st h with
      | none => .error .notFound
      | some f => descend st f rest

/-- `MemFS.getLocal` (src/mem.go:215): trim the `/mem/` lead, split on
slashes, look the head up (missing head is `ErrNotFound`), walk the
tail, and materialise the final entry. -/
def getLocal (st : Store) (key : Str) : Except GErr GFile :=
  let k := trimPre "/mem/".data key
  match splitSep '/' k with
  | [] => .error .keyRequired
  | p0 :: rest =>
    match lookupStore st p0 with
    | none => .error .notFound
    | some f =>
      match descend st f rest with
      | .error e => .error e
      | .ok e => entryFile st (st.length + 1) e

/-- A `MemFS` with its mock network of linked peers (`m.Network`).
Peer lookups in `Get` go through the peer's local map only. -/
structure MFS where
  files : Store
  network : List Store

/-- Go `errors.Is(err, ErrNotFound)`: matches the sentinel and any
`%w`-wrapped copy of it. -/
def errorsIsNotFound : GErr → Bool
  | .notFound => true
  | .wrappedNotFound _ _ => true
  | _ => false

/-- The network-fallback loop of `MemFS.Get`: probe each peer in order,
return the first hit; a peer error other than the exact `ErrNotFound`
sentinel aborts the probe; exhaustion is `ErrNotFound`. -/
def netLoop (key : Str) : List Store → Except GErr GFile
  | [] => .error .notFound
  | peer :: rest =>
    match getLocal peer key with
    | .ok f => .ok f
    | .error e => if e = .notFound then netLoop key rest else .error e

/-- `MemFS.Get` (src/mem.go:193): local lookup first; on an error that
`errors.Is`-matches `ErrNotFound`, fall back to the linked peers. -/
def memGet (m : MFS) (key : Str) : Except GErr GFile :=
  match getLocal m.files key with
  | .ok f => .ok f
  | .error e => if errorsIsNotFound e then netLoop key m.network else .error e

/-- `MemFS.Has` (src/mem.go:254): true on local-lookup success, false
otherwise; the error return is always nil. -/
def memHas (m : MFS) (key : Str) : Bool × Option GErr :=
  match getLocal m.files key with
  | .ok _ => (true, none)
  | .error _ => (false, none)

/-- `MemFS.Delete` (src/mem.go:262): only a whole root key may be
deleted; nested paths fail; deleting an absent key succeeds. -/
def memDelete (st : Store) (key : Str) : Except Str Store :=
  let k := trimPre "/mem/".data key
  match splitSep '/' k with
  | [] => .error "path is required".data
  | [p0] => .ok (deleteStore st p0)
  | _ => .error "can only delete entire hash, not individual paths".data

/-! ## PathKind and the Mux (src/fs.go, src/muxfs/mux.go) -/

/-- `PathKind` (src/fs.go, the `/mem`-aware variant the current muxfs
routes with). -/
def pathKind (p : Str) : Str :=
  if p = [] then "none".data
  else if hasPre "http://".data p || hasPre "https://".data p then "http".data
  else if hasPre "/ipfs".data p then "ipfs".data
  else if hasPre "/mem".data p then "mem".data
  else if hasPre "/map".data p then "map".data
  else "local".data

/-- A `muxfs.Mux` specialised to in-memory backends: the handler table
keyed by filesystem type, plus whether the done channel has been closed
(`doneWg.Wait` returned and `close(m.doneCh)` ran).  `Mux.Put` in the
source routes on `PathKind` and delegates; it never consults `doneCh`,
which the `doneFired` field makes checkable. -/
structure MuxM where
  handlers : List (Str × Store)
  doneFired : Bool

/-- Result of a `Mux.Put`. -/
inductive MuxPutRes
  | okR (path : Str) (st : Store)
  | goerr (msg : Str)
  | crashed
deriving DecidableEq

/-- The `noMuxerError` message. -/
def noMuxerMsg (kind path : Str) : Str :=
  "cannot resolve paths of kind ".data ++ kind ++ ". path: ".data ++ path

/-- `Mux.Put` (src/muxfs/mux.go:168): compute the path kind, look up
the handler, and delegate; an unregistered kind is an error. -/
def muxPut (m : MuxM) (f : PFile) : MuxPutRes :=
  let kind := pathKind (pfilePath f)
  match alookup m.handlers kind with
  | none => .goerr (noMuxerMsg kind (pfilePath f))
  | some st =>
    match memPut st f with
    | .okR p st' => .okR p st'
    | .goerr e _ => .goerr e
    | .crashed _ => .crashed

/-! ## The MemFS adder (src/mem.go:482-599) -/

/-- A node of the adder's incremental path tree (`nd` in the source):
a segment name, the store hash recorded for this node (empty until the
node's file is added), and the children in arrival order. -/
inductive Nd
  | node (name hash : Str) (children : List Nd)

/-- The node's segment name. -/
def ndName : Nd → Str
  | .node n _ _ => n

/-- The node's recorded store hash. -/
def ndHash : Nd → Str
  | .node _ h _ => h

/-- The node's children. -/
def ndChildren : Nd → List Nd
  | .node _ _ c => c

/-- `newNode`: fresh node with the given name, no hash, no children. -/
def newNd (name : Str) : Nd := .node name [] []

/-- The `(name, hash)` projection of a node. -/
def ndPair (c : Nd) : Str × Str := (ndName c, ndHash c)

/-- Path parsing of `adder.addNode`: trim a `/mem/` lead, then a `/`
lead; the empty remainder addresses the root node, anything else is
split on slashes. -/
def adderSegs (fullPath : Str) : List Str :=
  let p := trimPre "/mem/".data fullPath
  let q := trimPre "/".data p
  if q = [] then [] else splitSep '/' q

/-- Search a child list for the first node with the given name and
apply `f` to it; when no child matches, append `mk` — the search
`adder.addNode` performs at each level. -/
def updFirst (s : Str) (f : Nd → Nd) (mk : Nd) : List Nd → List Nd
  | [] => [mk]
  | c :: cs' => if ndName c = s then f c :: cs' else c :: updFirst s f mk cs'

/-- Walk (creating as needed) the path-tree along `segs`, as
`adder.addNode`, and set the hash of the terminal node, as the
`node.hash = hash` assignments in `adder.AddFile`.  Children are
searched by name (first match) and new children appended. -/
def setHashNd (t : Nd) : List Str → Str → Nd
  | [], h => .node (ndName t) h (ndChildren t)
  | s :: rest, h =>
    .node (ndName t) (ndHash t)
      (updFirst s (fun c => setHashNd c rest h) (setHashNd (newNd s) rest h) (ndChildren t))

/-- The child-list effect of one `setHashNd` level. -/
def setInto (cs : List Nd) (s : Str) (rest : List Str) (h : Str) : List Nd :=
  updFirst s (fun c => setHashNd c rest h) (setHashNd (newNd s) rest h) cs

/-- Walk (creating as needed) the path-tree along `segs` without
touching any hash: the pure `adder.addNode` insertion. -/
def ensureNd (t : Nd) : List Str → Nd
  | [] => t
  | s :: rest =>
    .node (ndName t) (ndHash t)
      (updFirst s (fun c => ensureNd c rest) (ensureNd (newNd s) rest) (ndChildren t))

/-- Locate the node at `segs` (first child matching each name). -/
def findNd (t : Nd) : List Str → Option Nd
  | [] => some t
  | s :: rest =>
    match (ndChildren t).find? (fun c => ndName c = s) with
    | some c => findNd c rest
    | none => none

/-- Lexicographic order on `(name, hash)` pairs.  `nd.toDir` sorts
children with `sort.Sort` on `name <` alone; on the trees the adder
builds, child names are pairwise distinct, where that order is total
and agrees with this one — the hash component only makes the model's
comparator a total order on all inputs. -/
def pairLe (a b : Str × Str) : Prop :=
  a.1 < b.1 ∨ (a.1 = b.1 ∧ a.2 ≤ b.2)

instance (a b : Str × Str) : Decidable (pairLe a b) := by
  unfold pairLe; infer_instance

/-- Sorted insertion of a key-value pair. -/
def insPair (x : Str × Str) : List (Str × Str) → List (Str × Str)
  | [] => [x]
  | y :: ys => if pairLe x y then x :: y :: ys else y :: insPair x ys

/-- Insertion sort of key-value pairs. -/
def sortPairs (l : List (Str × Str)) : List (Str × Str) := l.foldr insPair []

/-- Sorted insertion of a node, compared on its `(name, hash)` pair. -/
def insNd (x : Nd) : List Nd → List Nd
  | [] => [x]
  | y :: ys => if pairLe (ndPair x) (ndPair y) then x :: y :: ys else y :: insNd x ys

/-- Insertion sort of nodes, the model of `sort.Sort(n.children)`. -/
def sortNds (cs : List Nd) : List Nd := cs.foldr insNd []

/-- `nd.toDir`: sort the children, record `files[name] = hash` in
sorted order, join the child hashes one per line, and hash that
manifest; yields the directory's digest and its store entry. -/
def ndToDir (t : Nd) : Str × Entry :=
  let sc := sortNds (ndChildren t)
  let buf := sc.foldl (fun acc c => acc ++ ndHash c ++ ['\n']) []
  (hashBytes buf, .dirE (ndName t) (sc.map ndPair))

/-- An `AddedFile` event as emitted on the adder's channel: `Path` is
the `/mem/`-led store hash, `Name` the input's full path. -/
structure AddedFile where
  path : Str
  name : Str
deriving DecidableEq

/-- The observable state of one adder: its path tree, the backing
store, the events emitted so far, and (ghost) the log of keys written
to the store. -/
structure ARun where
  tree : Nd
  store : Store
  events : List AddedFile
  writes : List Str

/-- An argument to `adder.AddFile`.  The directory branch of `AddFile`
reads only the file's full path and directory flag (it never iterates
the directory's own children), so a directory input is just a path. -/
inductive AFile
  | aleaf (path data : Str)
  | adir (path : Str)

/-- `adder.AddFile` (src/mem.go:527): a directory is synthesised from
the current path-tree node via `toDir` and stored; a leaf goes through
`MemFS.put`.  Either way the node's hash is recorded and exactly one
event is emitted. -/
def adderAddFile (r : ARun) (f : AFile) : ARun :=
  match f with
  | .adir path =>
    let segs := adderSegs path
    let t1 := ensureNd r.tree segs
    let n := (findNd t1 segs).getD (newNd [])
    let hE := ndToDir n
    { tree := setHashNd t1 segs hE.1
      store := insertStore r.store hE.1 hE.2
      events := r.events ++ [⟨"/mem/".data ++ hE.1, path⟩]
      writes := r.writes ++ [hE.1] }
  | .aleaf path data =>
    let key := hashBytes data
    { tree := setHashNd r.tree (adderSegs path) key
      store := insertStore r.store key (.bytesE (goBase path) path data)
      events := r.events ++ [⟨"/mem/".data ++ key, path⟩]
      writes := r.writes ++ [key] }

/-- A fresh adder over a store (`MemFS.NewAdder`): root node named by
the empty string. -/
def adderInitOn (st : Store) : ARun := ⟨newNd [], st, [], []⟩

/-- `adder.Finalize` (src/mem.go:569): close the event channel (hence
no event), synthesise the root directory from the root node, store it,
and return its `/mem/`-led hash. -/
def adderFinalize (r : ARun) : Str × ARun :=
  let hE := ndToDir r.tree
  ("/mem/".data ++ hE.1,
    { tree := setHashNd r.tree [] hE.1
      store := insertStore r.store hE.1 hE.2
      events := r.events
      writes := r.writes ++ [hE.1] })

/-- Run a fresh adder on an empty store over a list of `AddFile`
arguments, then finalize. -/
def adderRunFin (fs : List AFile) : Str × ARun :=
  adderFinalize (fs.foldl adderAddFile (adderInitOn []))

/-- Run a fresh adder over leaf files only (path, data), then finalize,
returning the root store path. -/
def adderRootHash (l : List (Str × Str)) : Str :=
  (adderRunFin (l.map (fun pd => .aleaf pd.1 pd.2))).1

/-! ## WriteWithHooks (src/unnamed/part_031) -/

/-- A merkelization hook callback: given the merkelizedPaths map it
produces the file's final bytes, or an error (covering both a callback
error and a failure while the adder reads the produced reader — both
surface as a `CallAndAdd` error before any store write). -/
abbrev HookCb := List (Str × Str) → Except Str Str

/-- One `hookFile`: `id` models Go pointer identity (aliases of the
same hook file share it, and with it the once latch), plus the wrapped
file's full path, the required paths and the callback. -/
structure HookF where
  idn : Nat
  path : Str
  reqs : List Str
  cb : HookCb

/-- A leaf as the WriteWithHooks visitor sees it. -/
inductive WLeaf
  | plain (path data : Str)
  | hooked (h : HookF)

/-- The leaf's full path. -/
def wleafPath : WLeaf → Str
  | .plain p _ => p
  | .hooked h => h.path

/-- An input file tree handed to WriteWithHooks. -/
inductive WTree
  | leaf (l : WLeaf)
  | dir (path : Str) (children : List WTree)

mutual

/-- The leaves of a tree in the order `Walk` (src/unnamed/part_026)
visits them: bottom-up, children in order.  Directories are visited
too but the WriteWithHooks visitor returns immediately on them, so
the run is determined by this leaf sequence. -/
def wleaves : WTree → List WLeaf
  | .leaf l => [l]
  | .dir _ cs => wleavesList cs

/-- Leaves of a forest, in order. -/
def wleavesList : List WTree → List WLeaf
  | [] => []
  | t :: ts => wleaves t ++ wleavesList ts

end

/-- `HasRequiredPaths`: every required path present in merkelizedPaths. -/
def hasReqs (h : HookF) (merk : List (Str × Str)) : Bool :=
  h.reqs.all (fun p => (alookup merk p).isSome)

/-- The run state of one WriteWithHooks call under the sequential
schedule: the backing store, merkelizedPaths, the adder path tree, the
waitingHooks list, the set of fired once-latches, the count of emitted
but unconsumed `addedCh` events, the root path recorded by Finalize,
and two ghost logs (store keys written, callback invocations). -/
structure WSt where
  store : Store
  merk : List (Str × Str)
  tree : Nd
  waiting : List HookF
  fired : List Nat
  pending : Nat
  finalPath : Str
  written : List Str
  calls : List Nat

/-- `adder.AddFile` on a leaf, with the consumer goroutine's recording
of the emitted event folded in (the eager schedule): the bytes are
stored under their digest, the path-tree hash recorded,
`merkelizedPaths[name] = path` written, and one event becomes pending. -/
def wAddFile (s : WSt) (path data : Str) : WSt :=
  let key := hashBytes data
  { s with
    store := insertStore s.store key (.bytesE (goBase path) path data)
    tree := setHashNd s.tree (adderSegs path) key
    merk := aset s.merk path ("/mem/".data ++ key)
    pending := s.pending + 1
    written := s.written ++ [key] }

/-- `hookFile.CallAndAdd`: a no-op returning nil once the latch has
fired; otherwise the latch fires, the callback runs (logged), and on
success the produced bytes are added at the hook's own full path. -/
def wCallAndAdd (s : WSt) (h : HookF) : WSt × Option Str :=
  if h.idn ∈ s.fired then (s, none)
  else
    let s1 := { s with fired := s.fired ++ [h.idn], calls := s.calls ++ [h.idn] }
    match h.cb s.merk with
    | .error e => (s1, some e)
    | .ok data => (wAddFile s1 h.path data, none)

/-- Intermediate result of a step of the producer goroutine. -/
inductive WRes
  | cont (s : WSt)
  | failed (e : Str) (s : WSt)
  | stuck (s : WSt)

/-- One `<-addedCh`: consume a pending event; with none pending the
receive blocks forever (the code deadlocks), modelled `stuck`. -/
def wConsume (s : WSt) : WRes :=
  match s.pending with
  | 0 => .stuck s
  | n + 1 => .cont { s with pending := n }

/-- The waiting-list removal
`waitingHooks = append(waitingHooks[i:], waitingHooks[:i+1]...)` —
which as written rotates and duplicates instead of removing; `i` is
the index in the loop's snapshot, the slice expressions read the
current list. -/
def wRemove (s : WSt) (i : Nat) : WSt :=
  { s with waiting := s.waiting.drop i ++ s.waiting.take (i + 1) }

/-- The `for i, whf := range waitingHooks` scan at the top of each
visit: iterate the snapshot taken at loop entry, firing each hook
whose requirements are met, then removing and waiting for one event. -/
def wScanWaiting (s : WSt) (snapshot : List HookF) (i : Nat) : WRes :=
  match snapshot with
  | [] => .cont s
  | h :: rest =>
    if hasReqs h s.merk then
      match wCallAndAdd s h with
      | (s1, some e) => .failed e s1
      | (s1, none) =>
        match wConsume (wRemove s1 i) with
        | .cont s3 => wScanWaiting s3 rest (i + 1)
        | r => r
    else wScanWaiting s rest (i + 1)

/-- The WriteWithHooks visitor on one leaf: scan the waiting list,
then either fire/queue the hook file or add the plain file and wait
for its event. -/
def wVisit (s : WSt) (l : WLeaf) : WRes :=
  match wScanWaiting s s.waiting 0 with
  | .cont s1 =>
    match l with
    | .hooked h =>
      if hasReqs h s1.merk then
        match wCallAndAdd s1 h with
        | (s2, some e) => .failed e s2
        | (s2, none) => wConsume s2
      else .cont { s1 with waiting := s1.waiting ++ [h] }
    | .plain p d => wConsume (wAddFile s1 p d)
  | r => r

/-- The walk over all leaves. -/
def wWalk (s : WSt) : List WLeaf → WRes
  | [] => .cont s
  | l :: ls =>
    match wVisit s l with
    | .cont s1 => wWalk s1 ls
    | r => r

/-- Comma-separated join, as `strings.Join(missed, ", ")`. -/
def joinComma : List Str → Str
  | [] => []
  | [p] => p
  | p :: rest => p ++ ", ".data ++ joinComma rest

/-- The unmet-requirements error message. -/
def missingMsg (h : HookF) (merk : List (Str × Str)) : Str :=
  "requirements for hook were never met. missing required paths: ".data ++
    joinComma (h.reqs.filter (fun p => (alookup merk p).isNone))

/-- The end-of-walk loop over the still-waiting hooks, then Finalize.
A hook with unmet requirements fails the run; a fired hook's error
fails the run; no event is consumed here.  Finalize synthesises the
root directory (a store write with no event) and records the final
root path. -/
def wEpilogue (s : WSt) (snapshot : List HookF) (i : Nat) : WRes :=
  match snapshot with
  | [] =>
    let hE := ndToDir s.tree
    .cont { s with
      store := insertStore s.store hE.1 hE.2
      tree := setHashNd s.tree [] hE.1
      written := s.written ++ [hE.1]
      finalPath := "/mem/".data ++ hE.1 }
  | hk :: rest =>
    if hasReqs hk s.merk then
      match wCallAndAdd s hk with
      | (s1, some e) => .failed e s1
      | (s1, none) => wEpilogue (wRemove s1 i) rest (i + 1)
    else .failed (missingMsg hk s.merk) s

/-- Outcome of a WriteWithHooks call. -/
inductive WOutcome
  | success (rootPath : Str)
  | errored (msg : Str)
  | hung
deriving DecidableEq

/-- The rollback closure: issue `fs.Delete` for every recorded value of
merkelizedPaths (delete failures are logged and ignored).  Go map
iteration order is unspecified; deletions commute, so the model's
association order is equivalent. -/
def wRollback (s : WSt) : Store :=
  s.merk.foldl
    (fun st kv =>
      match memDelete st kv.2 with
      | .ok st' => st'
      | .error _ => st)
    s.store

/-- One full `WriteWithHooks` call over the leaves of the input tree,
under the schedule described in the header: outcome, the store as
observable when the call returns (rolled back on failure, untouched by
whatever a leaked goroutine might do after the error is handed over),
and the final internal state for ghost-log statements. -/
def wInit (pre : Store) : WSt :=
  { store := pre, merk := [], tree := newNd [], waiting := [], fired := []
    pending := 0, finalPath := [], written := [], calls := [] }

def writeWithHooks (pre : Store) (leaves : List WLeaf) : WOutcome × Store × WSt :=
  match wWalk (wInit pre) leaves with
  | .failed e s => (.errored e, wRollback s, s)
  | .stuck s => (.hung, s.store, s)
  | .cont s =>
    match wEpilogue s s.waiting 0 with
    | .failed e s' => (.errored e, wRollback s', s')
    | .stuck s' => (.hung, s'.store, s')
    | .cont s' => (.success s'.finalPath, s'.store, s')

/-- WriteWithHooks on an input tree. -/
def writeWithHooksTree (pre : Store) (t : WTree) : WOutcome × Store × WSt :=
  writeWithHooks pre (wleaves t)

/-! ## Observation helpers used by the theorems -/

/-- True when a `Mux.Put` returned a path rather than an error. -/
def muxPutOk : MuxPutRes → Bool
  | .okR _ _ => true
  | _ => false

/-- True when a WriteWithHooks call returned an error. -/
def isErrored : WOutcome → Bool
  | .errored _ => true
  | _ => false

/-- The keys of a store. -/
def keysOf (st : Store) : List Str := st.map Prod.fst

/-- The state carried by a producer-step result. -/
def stateOf : WRes → WSt
  | .cont s => s
  | .failed _ s => s
  | .stuck s => s


/-- The `(name, hash)` pairs of a child list. -/
def pairsOf (cs : List Nd) : List (Str × Str) := cs.map ndPair

/-- Whether a key occurs in an association list. -/
def hasKey {β : Type} (l : List (Str × β)) (k : Str) : Bool := (alookup l k).isSome

/-- Replace the value at every binding of `k`. -/
def mapVal (l : List (Str × Str)) (k v : Str) : List (Str × Str) :=
  l.map (fun e => if e.1 = k then (e.1, v) else e)

/-- The once-latch discipline: the invocation log has no repeats and
only fired latches appear in it. -/
def CallsOK (s : WSt) : Prop :=
  s.calls.Nodup ∧ ∀ i ∈ s.calls, i ∈ s.fired

/-- The rollback bookkeeping a WriteWithHooks run maintains, relative
to the pre-call store: store keys are duplicate-free; a key is stored
iff it was stored before the call or written during it; every written
key is recorded (with its `/mem/` lead) as a merkelizedPaths value;
every merkelizedPaths value is a written key with the `/mem/` lead;
and written keys are digest strings, hence slash-free. -/
def CoreOK (pre : Store) (s : WSt) : Prop :=
  (keysOf s.store).Nodup
  ∧ (∀ k, hasKey s.store k = true ↔ (hasKey pre k = true ∨ k ∈ s.written))
  ∧ (∀ k ∈ s.written, ("/mem/".data ++ k) ∈ s.merk.map Prod.snd)
  ∧ (∀ v ∈ s.merk.map Prod.snd, ∃ k, k ∈ s.written ∧ v = "/mem/".data ++ k)
  ∧ (∀ k ∈ s.written, '/' ∉ k)

/-- The walk-position bookkeeping, relative to the leaves not yet
visited: their paths are duplicate-free and disjoint from the
merkelizedPaths keys and from the waiting hooks' paths; an unfired
waiting hook's path is not yet merkelized; and waiting hooks with
different latches have different paths. -/
def WaitOK (s : WSt) (rem : List WLeaf) : Prop :=
  (rem.map wleafPath).Nodup
  ∧ (∀ p ∈ s.merk.map Prod.fst, p ∉ rem.map wleafPath)
  ∧ (∀ hw ∈ s.waiting, hw.idn ∉ s.fired → hw.path ∉ s.merk.map Prod.fst)
  ∧ (∀ hw ∈ s.waiting, hw.path ∉ rem.map wleafPath)
  ∧ (∀ h1 ∈ s.waiting, ∀ h2 ∈ s.waiting, h1.idn ≠ h2.idn → h1.path ≠ h2.path)

/-- One keyed update of a root pair list: a strong update records the
value at the key (replacing or appending), a weak update only ensures
the key exists with an empty value. -/
def upd1 (strong : Bool) (x v : Str) (z : List (Str × Str)) : List (Str × Str) :=
  if hasKey z x then (if strong then mapVal z x v else z)
  else z ++ [(x, if strong then v else [])]

/-- The effect of one leaf `AddFile` on the root-level `(name, hash)`
pairs of the adder tree, keyed by the parsed path segments: an empty
path touches only the root's own hash; a one-segment path records the
leaf digest under that name; a deeper path at most creates an
empty-hash child for its first segment. -/
def rawUpd (z : List (Str × Str)) (segs : List Str) (k : Str) : List (Str × Str) :=
  match segs with
  | [] => z
  | [x] => upd1 true x k z
  | x :: _ :: _ => upd1 false x [] z

/-- The canonical (sorted) form of the same update. -/
def projUpd (z : List (Str × Str)) (segs : List Str) (k : Str) : List (Str × Str) :=
  sortPairs (rawUpd z segs k)

/-- The sorted root-level `(name, hash)` pairs of an adder tree — the
only data the final root manifest depends on. -/
def projRoot (t : Nd) : List (Str × Str) := sortPairs (pairsOf (ndChildren t))

/-- The names of a tree's root-level children. -/
def rootNames (t : Nd) : List Str := (ndChildren t).map ndName

/-- The tree effect of one leaf `AddFile`. -/
def leafStep (t : Nd) (e : Str × Str) : Nd :=
  setHashNd t (adderSegs e.1) (hashBytes e.2)

/-- The adder tree after a run over leaf files. -/
def treeOf (l : List (Str × Str)) : Nd := l.foldl leafStep (newNd [])

/-- The newline-joined manifest of a pair list's hashes. -/
def manifestOf (ps : List (Str × Str)) : Str :=
  ps.foldl (fun acc p => acc ++ p.2 ++ ['\n']) []

/-- A hook file whose required path is never merkelized, so any run
containing it fails at the end-of-walk check. -/
def c1hook : HookF := ⟨7, "/mem/h.txt".data, ["/nope".data], fun _ => Except.ok "x".data⟩

/-- An input tree with one plain leaf and one never-satisfiable hook:
every WriteWithHooks run over it errors after writing the plain leaf. -/
def c1treeBad : WTree :=
  .dir "/mem".data
    [.leaf (.plain "/mem/a.txt".data "foo".data), .leaf (.hooked c1hook)]

/-- A pre-call store already holding an object at the digest of the
bytes `"foo"` — the digest the failing run above writes and rolls back. -/
def c1preBad : Store :=
  [(hashBytes "foo".data, Entry.bytesE "a.txt".data "/mem/a.txt".data "foo".data)]

/-! ## Basic lemmas about the string and map primitives -/

theorem hexDig_ne_slash (n : Nat) : hexDig n ≠ '/' := by
  unfold hexDig; split <;> decide

theorem slash_not_mem_hexOf (s : Str) : '/' ∉ hexOf s := by
  induction s with
  | nil => simp [hexOf]
  | cons c r ih =>
    intro hmem
    simp only [hexOf, hexByte, List.cons_append, List.nil_append, List.mem_cons] at hmem
    rcases hmem with h | h | h
    · exact hexDig_ne_slash _ h.symm
    · exact hexDig_ne_slash _ h.symm
    · exact ih h

theorem slash_not_mem_hashBytes (d : Str) : '/' ∉ hashBytes d := by
  simp only [hashBytes, List.mem_cons]
  push_neg
  exact ⟨by decide, by decide, slash_not_mem_hexOf d⟩

theorem splitSep_eq_single {sep : Char} {s : Str} (h : sep ∉ s) :
    splitSep sep s = [s] := by
  induction s with
  | nil => rfl
  | cons c r ih =>
    simp only [List.mem_cons] at h
    push_neg at h
    unfold splitSep
    rw [if_neg (fun hc => h.1 hc.symm), ih h.2]

theorem hasPre_append (p s : Str) : hasPre p (p ++ s) = true := by
  induction p with
  | nil => rfl
  | cons c r ih => simp [hasPre, ih]

theorem trimPre_append (p s : Str) : trimPre p (p ++ s) = s := by
  simp [trimPre, hasPre_append, List.drop_left]

theorem alookup_aset_self {β : Type} (l : List (Str × β)) (k : Str) (v : β) :
    alookup (aset l k v) k = some v := by
  induction l with
  | nil => simp [aset, alookup]
  | cons e rest ih =>
    by_cases h : e.1 = k
    · simp [aset, alookup, h]
    · simp [aset, alookup, h, ih]

theorem aset_length_of_isSome {β : Type} (l : List (Str × β)) (k : Str) (v : β)
    (h : (alookup l k).isSome) : (aset l k v).length = l.length := by
  induction l with
  | nil => simp [alookup] at h
  | cons e rest ih =>
    by_cases he : e.1 = k
    · simp [aset, he]
    · simp only [alookup, if_neg he] at h
      simp [aset, he, ih h]

theorem lookupStore_insert_self (st : Store) (k : Str) (v : Entry) :
    lookupStore (insertStore st k v) k = some v := alookup_aset_self st k v

/-! ## Claim C4 — leaf put/get round trip -/

/-- C4: for every byte buffer, putting a byte file with those contents
into MemFS returns a store path whose retrieval yields a non-directory
file with exactly those contents (whatever the prior store contents,
the linked network, the file's path or its modification time). -/
theorem c4_put_get_roundtrip (st : Store) (net : List Store) (path data : Str) (mt : Nat) :
    ∃ storePath st', memPut st (.bytesF path data mt) = .okR storePath st'
      ∧ ∃ f, memGet ⟨st', net⟩ storePath = .ok f ∧ gIsDir f = false ∧ gData f = data := by
  refine ⟨"/mem/".data ++ hashBytes data,
    insertStore st (hashBytes data) (.bytesE (goBase path) path data), rfl,
    .gBytes path data, ?_, rfl, rfl⟩
  have hget : getLocal (insertStore st (hashBytes data) (.bytesE (goBase path) path data))
      ("/mem/".data ++ hashBytes data) = .ok (.gBytes path data) := by
    unfold getLocal
    rw [trimPre_append]
    simp [splitSep_eq_single (slash_not_mem_hashBytes data), lookupStore_insert_self,
      descend, entryFile]
  unfold memGet
  rw [hget]

/-! ## Claim C9 — content addressing deduplicates -/

/-- C9: two byte files with identical contents but arbitrary differing
paths and modification times receive the same store path, and the
second put overwrites rather than duplicates, leaving the object count
unchanged. -/
theorem c9_put_dedup (st : Store) (p1 p2 d : Str) (m1 m2 : Nat) :
    ∃ key st1 st2,
      memPut st (.bytesF p1 d m1) = .okR key st1
      ∧ memPut st1 (.bytesF p2 d m2) = .okR key st2
      ∧ objectCount st2 = objectCount st1 := by
  refine ⟨"/mem/".data ++ hashBytes d, _, _, rfl, rfl, ?_⟩
  exact aset_length_of_isSome _ _ _ (by simp [insertStore, alookup_aset_self])

/-! ## Claim C10 — the directory NextFile error branch -/

/-- C10: a directory whose child iteration fails with a non-EOF error
drives `MemFS.put` into the branch that formats `err.Error()` on the
nil named return: the call crashes with a nil-interface dereference
instead of returning the intended error (children already written stay
written).  This evaluates the model at the failing input. -/
theorem c10_nextfile_error_crashes :
    memPutFile [] (.dirF "/d".data [.bytesF "/d/a.txt".data "foo".data 0] (some "boom".data))
      = .crashed [(hashBytes "foo".data, .bytesE "a.txt".data "/d/a.txt".data "foo".data)] := by
  decide

/-! ## Claim C6 — events versus store writes in an adder run -/

theorem adderAddFile_counts (r : ARun) (f : AFile) :
    (adderAddFile r f).events.length = r.events.length + 1
    ∧ (adderAddFile r f).writes.length = r.writes.length + 1 := by
  cases f <;> simp [adderAddFile]

theorem adderFold_counts (inputs : List AFile) : ∀ r : ARun,
    ((inputs.foldl adderAddFile r).events.length = r.events.length + inputs.length)
    ∧ ((inputs.foldl adderAddFile r).writes.length = r.writes.length + inputs.length) := by
  induction inputs with
  | nil => intro r; simp
  | cons f fs ih =>
    intro r
    have h1 := adderAddFile_counts r f
    have h2 := ih (adderAddFile r f)
    simp only [List.foldl_cons, List.length_cons]
    refine ⟨?_, ?_⟩
    · have e1 := h1.1; have e2 := h2.1; omega
    · have e1 := h1.2; have e2 := h2.2; omega

/-- C6 (amended): in an adder run, every successful `AddFile` call
performs exactly one store write and emits exactly one event, while
`Finalize` performs one extra write — the synthesised root directory —
with no event, because the event channel is closed before the write.
So after finalizing, the write count exceeds the event count by one. -/
theorem c6_amended_one_event_per_addfile (inputs : List AFile) :
    (adderRunFin inputs).2.events.length = inputs.length
    ∧ (adderRunFin inputs).2.writes.length = inputs.length + 1 := by
  have h := adderFold_counts inputs (adderInitOn [])
  simp [adderInitOn] at h
  unfold adderRunFin adderFinalize
  constructor
  · simpa using h.1
  · simpa using h.2

/-- C6 counterexample: the claim demands exactly one event for every
write including the Finalize-synthesised directory; on the empty run
Finalize writes the root directory and no event is ever emitted, so
the counts differ. -/
theorem c6_counterexample :
    (adderRunFin []).2.writes.length ≠ (adderRunFin []).2.events.length := by
  decide

/-! ## Claim C2 — Mux writes after the done channel fires -/

/-- C2 counterexample: a Mux holding only a MemFS backend (which is
not a releasing filesystem, so its done channel closes immediately)
accepts a Put of a `/mem/` path after the done channel has fired: the
call returns a path and no error. -/
theorem c2_counterexample :
    (MuxM.mk [("mem".data, [])] true).doneFired = true
    ∧ muxPutOk (muxPut (MuxM.mk [("mem".data, [])] true)
        (.bytesF "/mem/a.txt".data "foo".data 0)) = true := by
  constructor
  · rfl
  · decide

/-- C2 (amended): `Mux.Put` never consults the done channel, so its
outcome after the done channel fires is exactly its outcome before —
a post-release Put fails only when routing fails (or the routed
backend itself fails), not because the Mux is released; in particular
a Put whose path kind has no registered handler errors. -/
theorem c2_amended_put_ignores_done :
    (∀ (handlers : List (Str × Store)) (d1 d2 : Bool) (f : PFile),
        muxPut (MuxM.mk handlers d1) f = muxPut (MuxM.mk handlers d2) f)
    ∧ (∀ (m : MuxM) (f : PFile),
        alookup m.handlers (pathKind (pfilePath f)) = none →
        muxPut m f = .goerr (noMuxerMsg (pathKind (pfilePath f)) (pfilePath f))) := by
  constructor
  · intro handlers d1 d2 f; rfl
  · intro m f h; simp [muxPut, h]

/-- Witness for the amended C2 at concrete inputs: flipping the done
flag does not change the Put result, and an unregistered path kind is
rejected. -/
theorem c2_amended_witness :
    muxPut (MuxM.mk [] true) (.bytesF "/mem/a.txt".data "x".data 0)
      = muxPut (MuxM.mk [] false) (.bytesF "/mem/a.txt".data "x".data 0)
    ∧ muxPut (MuxM.mk [] true) (.bytesF "/mem/a.txt".data "x".data 0)
      = .goerr (noMuxerMsg (pathKind (pfilePath (.bytesF "/mem/a.txt".data "x".data 0)))
          (pfilePath (.bytesF "/mem/a.txt".data "x".data 0))) :=
  ⟨c2_amended_put_ignores_done.1 [] true false (.bytesF "/mem/a.txt".data "x".data 0),
   c2_amended_put_ignores_done.2 (MuxM.mk [] true) (.bytesF "/mem/a.txt".data "x".data 0)
     (by decide)⟩

/-! ## Claim C7 — getLocal path resolution -/

/-- C7: resolving `/<storeName>/<head>/<tail...>` against MemFS: a
head absent from the store is not-found; with the head present the
remaining segments are consumed by the descent, whose step equations
say a directory entry consumes the next segment as a child name while
a byte entry met with segments remaining is not-a-directory; and a
byte entry with an empty tail comes back as a byte file. -/
theorem c7_getLocal_resolution (st : Store) (pathArg head : Str) (tail : List Str)
    (hsplit : splitSep '/' (trimPre "/mem/".data pathArg) = head :: tail) :
    (lookupStore st head = none → getLocal st pathArg = .error .notFound)
    ∧ (∀ n p d, lookupStore st head = some (.bytesE n p d) → tail = [] →
        getLocal st pathArg = .ok (.gBytes p d))
    ∧ (∀ e, lookupStore st head = some e →
        getLocal st pathArg =
          (match descend st e tail with
           | .error er => .error er
           | .ok e' => entryFile st (st.length + 1) e'))
    ∧ (∀ n p d seg rest, descend st (.bytesE n p d) (seg :: rest) = .error .notDirectory)
    ∧ (∀ p fls seg rest, descend st (.dirE p fls) (seg :: rest) =
        (match lookupStore st ((alookup fls seg).getD []) with
         | none => .error .notFound
         | some f => descend st f rest)) := by
  refine ⟨?_, ?_, ?_, ?_, ?_⟩
  · intro h
    simp only [getLocal, hsplit, h]
  · intro n p d hlk htail
    subst htail
    simp only [getLocal, hsplit, hlk, descend, entryFile]
  · intro e hlk
    simp only [getLocal, hsplit, hlk]
  · intro n p d seg rest
    rfl
  · intro p fls seg rest
    rfl

/-- Witness for C7 at a concrete store and path: the head hit with an
empty tail returns the byte file, and a missing head on the empty
store is not-found. -/
theorem c7_witness :
    getLocal [("Qmaa".data, Entry.bytesE "a".data "p".data "foo".data)] "/mem/Qmaa".data
      = .ok (.gBytes "p".data "foo".data)
    ∧ getLocal [] "/mem/Qmaa".data = .error .notFound :=
  ⟨(c7_getLocal_resolution [("Qmaa".data, Entry.bytesE "a".data "p".data "foo".data)]
      "/mem/Qmaa".data "Qmaa".data [] (by decide)).2.1 "a".data "p".data "foo".data
      (by decide) rfl,
   (c7_getLocal_resolution [] "/mem/Qmaa".data "Qmaa".data [] (by decide)).1 (by decide)⟩

/-! ## Claim C8 — Has never errors and consults only the local map -/

theorem netLoop_skip (key : Str) (pres rest : List Store)
    (h : ∀ s ∈ pres, getLocal s key = .error .notFound) :
    netLoop key (pres ++ rest) = netLoop key rest := by
  induction pres with
  | nil => rfl
  | cons p ps ih =>
    have hp := h p (by simp)
    simp only [List.cons_append, netLoop, hp, if_pos rfl]
    exact ih (fun s hs => h s (by simp [hs]))

/-- C8: `Has` returns a nil error on every input, and it consults only
the local entry map — a path stored only on a linked peer reports
false from `Has` even though `Get` on the same path succeeds through
the network fallback. -/
theorem c8_has_never_errors_local_only :
    (∀ (m : MFS) (key : Str), (memHas m key).2 = none)
    ∧ (∀ (files : Store) (pres posts : List Store) (peer : Store) (key : Str) (f : GFile),
        getLocal files key = .error .notFound →
        (∀ s ∈ pres, getLocal s key = .error .notFound) →
        getLocal peer key = .ok f →
        memHas ⟨files, pres ++ peer :: posts⟩ key = (false, none)
          ∧ memGet ⟨files, pres ++ peer :: posts⟩ key = .ok f) := by
  constructor
  · intro m key
    unfold memHas
    cases getLocal m.files key <;> rfl
  · intro files pres posts peer key f hloc hpres hpeer
    constructor
    · unfold memHas
      rw [hloc]
    · unfold memGet
      rw [hloc]
      simp only [errorsIsNotFound, if_pos rfl]
      rw [netLoop_skip key pres (peer :: posts) hpres]
      simp [netLoop, hpeer]

/-- Witness for C8 at a concrete instance: the key lives only on the
single linked peer; `Has` answers `(false, nil)` while `Get` returns
the peer's byte file. -/
theorem c8_witness :
    memHas ⟨[], [[("Qmaa".data, Entry.bytesE "a".data "p".data "foo".data)]]⟩ "/mem/Qmaa".data
        = (false, none)
    ∧ memGet ⟨[], [[("Qmaa".data, Entry.bytesE "a".data "p".data "foo".data)]]⟩ "/mem/Qmaa".data
        = .ok (.gBytes "p".data "foo".data) := by
  have h := c8_has_never_errors_local_only.2 [] []
    [] [("Qmaa".data, Entry.bytesE "a".data "p".data "foo".data)] "/mem/Qmaa".data
    (.gBytes "p".data "foo".data) (by rfl) (by intro s hs; cases hs) (by rfl)
  exact h

/-! ## Claim C3 — order facts for the child sort -/

theorem pairLe_refl (a : Str × Str) : pairLe a a := Or.inr ⟨rfl, le_refl _⟩

theorem pairLe_total (a b : Str × Str) : pairLe a b ∨ pairLe b a := by
  rcases lt_trichotomy a.1 b.1 with h | h | h
  · exact Or.inl (Or.inl h)
  · rcases le_total a.2 b.2 with h2 | h2
    · exact Or.inl (Or.inr ⟨h, h2⟩)
    · exact Or.inr (Or.inr ⟨h.symm, h2⟩)
  · exact Or.inr (Or.inl h)

theorem pairLe_antisymm {a b : Str × Str} (h1 : pairLe a b) (h2 : pairLe b a) : a = b := by
  rcases h1 with h1 | ⟨e1, l1⟩
  · rcases h2 with h2 | ⟨e2, _⟩
    · exact absurd h2 (lt_asymm h1)
    · exact absurd (e2 ▸ h1) (lt_irrefl _)
  · rcases h2 with h2 | ⟨_, l2⟩
    · exact absurd (e1 ▸ h2) (lt_irrefl _)
    · exact Prod.ext e1 (le_antisymm l1 l2)

theorem pairLe_trans {a b c : Str × Str} (h1 : pairLe a b) (h2 : pairLe b c) : pairLe a c := by
  rcases h1 with h1 | ⟨e1, l1⟩ <;> rcases h2 with h2 | ⟨e2, l2⟩
  · exact Or.inl (lt_trans h1 h2)
  · exact Or.inl (e2 ▸ h1)
  · exact Or.inl (e1 ▸ h2)
  · exact Or.inr ⟨e1.trans e2, le_trans l1 l2⟩

theorem pairLe_of_not {a b : Str × Str} (h : ¬ pairLe a b) : pairLe b a :=
  (pairLe_total a b).resolve_left h

instance : IsAntisymm (Str × Str) pairLe := ⟨fun _ _ => pairLe_antisymm⟩

theorem insPair_perm (x : Str × Str) (l : List (Str × Str)) : (insPair x l).Perm (x :: l) := by
  induction l with
  | nil => exact List.Perm.refl _
  | cons y ys ih =>
    unfold insPair
    by_cases h : pairLe x y
    · rw [if_pos h]
    · rw [if_neg h]
      exact (List.Perm.cons y ih).trans (List.Perm.swap x y ys)

theorem sortPairs_perm (l : List (Str × Str)) : (sortPairs l).Perm l := by
  induction l with
  | nil => exact List.Perm.refl _
  | cons x xs ih =>
    exact (insPair_perm x (sortPairs xs)).trans (List.Perm.cons x ih)

theorem insPair_sorted (x : Str × Str) (l : List (Str × Str))
    (h : l.Sorted pairLe) : (insPair x l).Sorted pairLe := by
  induction l with
  | nil => simp [insPair]
  | cons y ys ih =>
    rw [List.sorted_cons] at h
    unfold insPair
    by_cases hxy : pairLe x y
    · rw [if_pos hxy, List.sorted_cons]
      refine ⟨?_, List.sorted_cons.2 h⟩
      intro b hb
      rcases List.mem_cons.1 hb with rfl | hb
      · exact hxy
      · exact pairLe_trans hxy (h.1 b hb)
    · rw [if_neg hxy, List.sorted_cons]
      refine ⟨?_, ih h.2⟩
      intro b hb
      have := (insPair_perm x ys).mem_iff.1 hb
      rcases List.mem_cons.1 this with rfl | hb'
      · exact pairLe_of_not hxy
      · exact h.1 b hb'

theorem sortPairs_sorted (l : List (Str × Str)) : (sortPairs l).Sorted pairLe := by
  induction l with
  | nil => simp [sortPairs]
  | cons x xs ih => exact insPair_sorted x (sortPairs xs) ih

theorem sortPairs_eq_of_perm {l l' : List (Str × Str)} (h : l.Perm l') :
    sortPairs l = sortPairs l' :=
  List.eq_of_perm_of_sorted ((sortPairs_perm l).trans (h.trans (sortPairs_perm l').symm))
    (sortPairs_sorted l) (sortPairs_sorted l')

theorem sortPairs_eq_self_of_sorted {l : List (Str × Str)} (h : l.Sorted pairLe) :
    sortPairs l = l :=
  List.eq_of_perm_of_sorted (sortPairs_perm l) (sortPairs_sorted l) h

/-! ## Claim C3 — keyed updates on root pair lists -/

theorem hasKey_cons {β : Type} (e : Str × β) (rest : List (Str × β)) (k : Str) :
    hasKey (e :: rest) k = (if e.1 = k then true else hasKey rest k) := by
  obtain ⟨k', v⟩ := e
  by_cases h : k' = k <;> simp [hasKey, alookup, h]

theorem hasKey_iff_mem {β : Type} (l : List (Str × β)) (k : Str) :
    hasKey l k = true ↔ k ∈ l.map Prod.fst := by
  induction l with
  | nil => simp [hasKey, alookup]
  | cons e rest ih =>
    obtain ⟨k', v⟩ := e
    rw [hasKey_cons]
    simp only [List.map_cons, List.mem_cons]
    by_cases h : k' = k
    · subst h
      rw [if_pos rfl]
      constructor
      · intro _; exact Or.inl rfl
      · intro _; rfl
    · have h' : ¬ k = k' := fun hk => h hk.symm
      simp only [if_neg h, ih, h', false_or]

theorem hasKey_append {β : Type} (l1 l2 : List (Str × β)) (k : Str) :
    hasKey (l1 ++ l2) k = (hasKey l1 k || hasKey l2 k) := by
  induction l1 with
  | nil => simp [hasKey, alookup]
  | cons e rest ih =>
    rw [List.cons_append, hasKey_cons, hasKey_cons]
    by_cases h : e.1 = k <;> simp [h, ih]

theorem hasKey_single (x v y : Str) : hasKey [(x, v)] y = decide (x = y) := by
  rw [hasKey_cons]
  by_cases h : x = y <;> simp [h, hasKey, alookup]

theorem keys_mapVal (l : List (Str × Str)) (k v : Str) :
    (mapVal l k v).map Prod.fst = l.map Prod.fst := by
  unfold mapVal
  rw [List.map_map]
  congr 1
  funext e
  by_cases h : e.1 = k <;> simp [h]

theorem hasKey_mapVal (l : List (Str × Str)) (k v k' : Str) :
    hasKey (mapVal l k v) k' = hasKey l k' := by
  rw [Bool.eq_iff_iff, hasKey_iff_mem, hasKey_iff_mem, keys_mapVal]

theorem mapVal_not_hasKey (l : List (Str × Str)) (k v : Str)
    (h : hasKey l k = false) : mapVal l k v = l := by
  induction l with
  | nil => rfl
  | cons e rest ih =>
    rw [hasKey_cons] at h
    by_cases he : e.1 = k
    · rw [if_pos he] at h; cases h
    · rw [if_neg he] at h
      simp only [mapVal, List.map_cons, if_neg he]
      rw [show List.map (fun e => if e.1 = k then (e.1, v) else e) rest = mapVal rest k v from rfl,
        ih h]

theorem mapVal_append (l1 l2 : List (Str × Str)) (k v : Str) :
    mapVal (l1 ++ l2) k v = mapVal l1 k v ++ mapVal l2 k v := by
  unfold mapVal
  exact List.map_append _ _ _

theorem mapVal_single_ne {x y : Str} (h : x ≠ y) (v w : Str) :
    mapVal [(y, w)] x v = [(y, w)] := by
  have hyx : ¬ (y = x) := fun hk => h hk.symm
  simp [mapVal, hyx]

theorem mapVal_mapVal_ne (l : List (Str × Str)) (k1 v1 k2 v2 : Str) (h : k1 ≠ k2) :
    mapVal (mapVal l k1 v1) k2 v2 = mapVal (mapVal l k2 v2) k1 v1 := by
  unfold mapVal
  rw [List.map_map, List.map_map]
  congr 1
  funext e
  by_cases h1 : e.1 = k1 <;> by_cases h2 : e.1 = k2
  · exact absurd (h1.symm.trans h2) h
  · simp [Function.comp, h1, h2, h]
  · simp [Function.comp, h1, h2, Ne.symm h]
  · simp [Function.comp, h1, h2]

theorem hasKey_perm {β : Type} {z z' : List (Str × β)} (h : z.Perm z') (x : Str) :
    hasKey z x = hasKey z' x := by
  rw [Bool.eq_iff_iff, hasKey_iff_mem, hasKey_iff_mem]
  exact (h.map Prod.fst).mem_iff

theorem upd1_perm {z z' : List (Str × Str)} (h : z.Perm z') (b : Bool) (x v : Str) :
    (upd1 b x v z).Perm (upd1 b x v z') := by
  unfold upd1
  rw [← hasKey_perm h x]
  by_cases hk : hasKey z x
  · rw [if_pos hk, if_pos hk]
    cases b
    · simpa using h
    · simpa using h.map _
  · rw [if_neg hk, if_neg hk]
    exact h.append_right _

theorem upd1_hasKey_true {z : List (Str × Str)} {x : Str} (hk : hasKey z x = true)
    (b : Bool) (v : Str) : upd1 b x v z = if b then mapVal z x v else z := by
  simp [upd1, hk]

theorem upd1_hasKey_false {z : List (Str × Str)} {x : Str} (hk : hasKey z x = false)
    (b : Bool) (v : Str) : upd1 b x v z = z ++ [(x, if b then v else [])] := by
  simp [upd1, hk]

theorem mapVal_single_self (x w v : Str) : mapVal [(x, w)] x v = [(x, v)] := by
  simp [mapVal]

theorem hasKey_upd1 (z : List (Str × Str)) (b : Bool) (x v y : Str) :
    hasKey (upd1 b x v z) y = (hasKey z y || decide (x = y)) := by
  by_cases hk : hasKey z x
  · rw [upd1_hasKey_true hk]
    by_cases hxy : x = y
    · subst hxy
      cases b <;> simp [hasKey_mapVal, hk]
    · cases b <;> simp [hasKey_mapVal, hxy]
  · rw [Bool.not_eq_true] at hk
    rw [upd1_hasKey_false hk, hasKey_append, hasKey_single]

theorem upd1_comm_same (z : List (Str × Str)) (b1 b2 : Bool) (x v1 v2 : Str)
    (hb : ¬(b1 = true ∧ b2 = true)) :
    upd1 b1 x v1 (upd1 b2 x v2 z) = upd1 b2 x v2 (upd1 b1 x v1 z) := by
  by_cases hk : hasKey z x
  · have hm1 : hasKey (mapVal z x v1) x = true := by rw [hasKey_mapVal]; exact hk
    have hm2 : hasKey (mapVal z x v2) x = true := by rw [hasKey_mapVal]; exact hk
    cases b1 <;> cases b2
    · simp [upd1_hasKey_true hk]
    · simp [upd1_hasKey_true hk, upd1_hasKey_true hm2]
    · simp [upd1_hasKey_true hk, upd1_hasKey_true hm1]
    · exact absurd ⟨rfl, rfl⟩ hb
  · rw [Bool.not_eq_true] at hk
    have ha : ∀ w : Str, hasKey (z ++ [(x, w)]) x = true := by
      intro w; rw [hasKey_append, hasKey_single]; simp
    cases b1 <;> cases b2
    · simp [upd1_hasKey_false hk, upd1_hasKey_true (ha [])]
    · simp [upd1_hasKey_false hk, upd1_hasKey_true (ha v2), upd1_hasKey_true (ha []),
        mapVal_append, mapVal_single_self, mapVal_not_hasKey z x v2 hk]
    · simp [upd1_hasKey_false hk, upd1_hasKey_true (ha v1), upd1_hasKey_true (ha []),
        mapVal_append, mapVal_single_self, mapVal_not_hasKey z x v1 hk]
    · exact absurd ⟨rfl, rfl⟩ hb

theorem upd1_comm_TT (z : List (Str × Str)) (b1 b2 : Bool) (x1 v1 x2 v2 : Str)
    (hne : x1 ≠ x2) (hk1 : hasKey z x1 = true) (hk2 : hasKey z x2 = true) :
    upd1 b1 x1 v1 (upd1 b2 x2 v2 z) = upd1 b2 x2 v2 (upd1 b1 x1 v1 z) := by
  have hm12 : hasKey (mapVal z x2 v2) x1 = true := by rw [hasKey_mapVal]; exact hk1
  have hm21 : hasKey (mapVal z x1 v1) x2 = true := by rw [hasKey_mapVal]; exact hk2
  cases b1 <;> cases b2
  · simp [upd1_hasKey_true hk1, upd1_hasKey_true hk2]
  · simp [upd1_hasKey_true hk1, upd1_hasKey_true hk2, upd1_hasKey_true hm12]
  · simp [upd1_hasKey_true hk1, upd1_hasKey_true hk2, upd1_hasKey_true hm21]
  · simp only [upd1_hasKey_true hk1, upd1_hasKey_true hk2, upd1_hasKey_true hm12,
      upd1_hasKey_true hm21, if_true]
    exact mapVal_mapVal_ne z x2 v2 x1 v1 (Ne.symm hne)

theorem upd1_comm_TF (z : List (Str × Str)) (b1 b2 : Bool) (x1 v1 x2 v2 : Str)
    (hne : x1 ≠ x2) (hk1 : hasKey z x1 = true) (hk2 : hasKey z x2 = false) :
    upd1 b1 x1 v1 (upd1 b2 x2 v2 z) = upd1 b2 x2 v2 (upd1 b1 x1 v1 z) := by
  have hka : ∀ w : Str, hasKey (z ++ [(x2, w)]) x1 = true := by
    intro w; rw [hasKey_append]; simp [hk1]
  have hm2 : hasKey (mapVal z x1 v1) x2 = false := by rw [hasKey_mapVal]; exact hk2
  cases b1 <;> cases b2
  · simp [upd1_hasKey_false hk2, upd1_hasKey_true hk1, upd1_hasKey_true (hka []),
      upd1_hasKey_false hm2]
  · simp [upd1_hasKey_false hk2, upd1_hasKey_true hk1, upd1_hasKey_true (hka v2),
      upd1_hasKey_false hm2]
  · simp [upd1_hasKey_false hk2, upd1_hasKey_true hk1, upd1_hasKey_true (hka []),
      upd1_hasKey_false hm2, mapVal_append, mapVal_single_ne hne]
  · simp [upd1_hasKey_false hk2, upd1_hasKey_true hk1, upd1_hasKey_true (hka v2),
      upd1_hasKey_false hm2, mapVal_append, mapVal_single_ne hne]

theorem upd1_comm_FF (z : List (Str × Str)) (b1 b2 : Bool) (x1 v1 x2 v2 : Str)
    (hne : x1 ≠ x2) (hk1 : hasKey z x1 = false) (hk2 : hasKey z x2 = false) :
    (upd1 b1 x1 v1 (upd1 b2 x2 v2 z)).Perm (upd1 b2 x2 v2 (upd1 b1 x1 v1 z)) := by
  have ha1 : ∀ w : Str, hasKey (z ++ [(x2, w)]) x1 = false := by
    intro w; rw [hasKey_append, hasKey_single]; simp [hk1, Ne.symm hne]
  have ha2 : ∀ w : Str, hasKey (z ++ [(x1, w)]) x2 = false := by
    intro w; rw [hasKey_append, hasKey_single]; simp [hk2, hne]
  rw [upd1_hasKey_false hk2, upd1_hasKey_false hk1,
    upd1_hasKey_false (ha1 (if b2 then v2 else [])), upd1_hasKey_false (ha2 (if b1 then v1 else []))]
  rw [List.append_assoc, List.append_assoc]
  exact List.Perm.append_left z (List.Perm.swap _ _ [])

theorem upd1_comm (z : List (Str × Str)) (b1 b2 : Bool) (x1 v1 x2 v2 : Str)
    (hx : x1 ≠ x2 ∨ ¬(b1 = true ∧ b2 = true)) :
    (upd1 b1 x1 v1 (upd1 b2 x2 v2 z)).Perm (upd1 b2 x2 v2 (upd1 b1 x1 v1 z)) := by
  by_cases hne : x1 = x2
  · subst hne
    have hb : ¬(b1 = true ∧ b2 = true) := hx.resolve_left (fun hc => hc rfl)
    exact (upd1_comm_same z b1 b2 x1 v1 v2 hb) ▸ List.Perm.refl _
  · by_cases hk1 : hasKey z x1 <;> by_cases hk2 : hasKey z x2
    · exact (upd1_comm_TT z b1 b2 x1 v1 x2 v2 hne hk1 hk2) ▸ List.Perm.refl _
    · rw [Bool.not_eq_true] at hk2
      exact (upd1_comm_TF z b1 b2 x1 v1 x2 v2 hne hk1 hk2) ▸ List.Perm.refl _
    · rw [Bool.not_eq_true] at hk1
      exact ((upd1_comm_TF z b2 b1 x2 v2 x1 v1 (Ne.symm hne) hk2 hk1).symm) ▸ List.Perm.refl _
    · rw [Bool.not_eq_true] at hk1 hk2
      exact upd1_comm_FF z b1 b2 x1 v1 x2 v2 hne hk1 hk2

theorem rawUpd_perm {z z' : List (Str × Str)} (h : z.Perm z') (segs : List Str) (k : Str) :
    (rawUpd z segs k).Perm (rawUpd z' segs k) := by
  cases segs with
  | nil => exact h
  | cons x rest =>
    cases rest with
    | nil => exact upd1_perm h true x k
    | cons y t => exact upd1_perm h false x []

theorem rawUpd_comm (z : List (Str × Str)) (s1 s2 : List Str) (k1 k2 : Str)
    (hne : s1 ≠ s2) :
    (rawUpd (rawUpd z s1 k1) s2 k2).Perm (rawUpd (rawUpd z s2 k2) s1 k1) := by
  cases s1 with
  | nil => exact List.Perm.refl _
  | cons a t1 =>
    cases s2 with
    | nil => exact List.Perm.refl _
    | cons b t2 =>
      cases t1 with
      | nil =>
        cases t2 with
        | nil =>
          have hab : a ≠ b := fun h => hne (by rw [h])
          simp only [rawUpd]
          exact upd1_comm z true true b k2 a k1 (Or.inl (Ne.symm hab))
        | cons c t2' =>
          simp only [rawUpd]
          exact upd1_comm z false true b [] a k1 (Or.inr (by simp))
      | cons c t1' =>
        cases t2 with
        | nil =>
          simp only [rawUpd]
          exact upd1_comm z true false b k2 a [] (Or.inr (by simp))
        | cons d t2' =>
          simp only [rawUpd]
          exact upd1_comm z false false b [] a [] (Or.inr (by simp))

theorem projUpd_comm (z : List (Str × Str)) (s1 s2 : List Str) (k1 k2 : Str)
    (hne : s1 ≠ s2) :
    projUpd (projUpd z s1 k1) s2 k2 = projUpd (projUpd z s2 k2) s1 k1 := by
  unfold projUpd
  calc sortPairs (rawUpd (sortPairs (rawUpd z s1 k1)) s2 k2)
      = sortPairs (rawUpd (rawUpd z s1 k1) s2 k2) :=
        sortPairs_eq_of_perm (rawUpd_perm (sortPairs_perm _) s2 k2)
    _ = sortPairs (rawUpd (rawUpd z s2 k2) s1 k1) :=
        sortPairs_eq_of_perm (rawUpd_comm z s1 s2 k1 k2 hne)
    _ = sortPairs (rawUpd (sortPairs (rawUpd z s2 k2)) s1 k1) :=
        (sortPairs_eq_of_perm (rawUpd_perm (sortPairs_perm _) s1 k1)).symm

/-! ## Claim C3 — the tree fold projects onto root pair updates -/

theorem ndName_setHashNd (t : Nd) (segs : List Str) (h : Str) :
    ndName (setHashNd t segs h) = ndName t := by
  cases segs <;> simp [setHashNd, ndName]

theorem ndPair_setHashNd_deep (t : Nd) (s : Str) (rest : List Str) (h : Str) :
    ndPair (setHashNd t (s :: rest) h) = ndPair t := by
  simp [setHashNd, ndPair, ndName, ndHash]

theorem ndPair_setHashNd_nil (t : Nd) (h : Str) :
    ndPair (setHashNd t [] h) = (ndName t, h) := by
  simp [setHashNd, ndPair, ndName, ndHash]

theorem ndChildren_setHashNd_nil (t : Nd) (h : Str) :
    ndChildren (setHashNd t [] h) = ndChildren t := by
  simp [setHashNd, ndChildren]

theorem ndChildren_setHashNd_cons (t : Nd) (s : Str) (rest : List Str) (h : Str) :
    ndChildren (setHashNd t (s :: rest) h) = setInto (ndChildren t) s rest h := by
  simp [setHashNd, ndChildren, setInto]

theorem pairsOf_cons (c : Nd) (cs : List Nd) : pairsOf (c :: cs) = ndPair c :: pairsOf cs := rfl

theorem ndPair_fst (c : Nd) : (ndPair c).1 = ndName c := rfl

theorem mapVal_cons (e : Str × Str) (l : List (Str × Str)) (k v : Str) :
    mapVal (e :: l) k v = (if e.1 = k then (e.1, v) else e) :: mapVal l k v := rfl

theorem keys_pairsOf (cs : List Nd) : (pairsOf cs).map Prod.fst = cs.map ndName := by
  induction cs with
  | nil => rfl
  | cons c cs' ih =>
    rw [pairsOf_cons, List.map_cons, List.map_cons, ih, ndPair_fst]

theorem hasKey_pairsOf_head {c : Nd} {s : Str} (hc : ndName c = s) (cs' : List Nd) :
    hasKey (ndPair c :: pairsOf cs') s = true := by
  rw [hasKey_cons, ndPair_fst, if_pos hc]

theorem hasKey_pairsOf_tail {c : Nd} {s : Str} (hc : ¬ ndName c = s) (cs' : List Nd) :
    hasKey (ndPair c :: pairsOf cs') s = hasKey (pairsOf cs') s := by
  rw [hasKey_cons, ndPair_fst, if_neg hc]

theorem not_hasKey_pairsOf {cs : List Nd} {s : Str} (h : s ∉ cs.map ndName) :
    hasKey (pairsOf cs) s = false := by
  rw [← Bool.not_eq_true, hasKey_iff_mem, keys_pairsOf]
  exact h

theorem pairsOf_setInto_nil (cs : List Nd) (s : Str) (k : Str)
    (hnd : (cs.map ndName).Nodup) :
    pairsOf (setInto cs s [] k) = upd1 true s k (pairsOf cs) := by
  induction cs with
  | nil =>
    simp [setInto, updFirst, setHashNd, pairsOf, upd1, hasKey, alookup, newNd, ndPair, ndName, ndHash]
  | cons c cs' ih =>
    rw [List.map_cons, List.nodup_cons] at hnd
    by_cases hc : ndName c = s
    · rw [show setInto (c :: cs') s [] k = setHashNd c [] k :: cs' by simp [setInto, updFirst, hc]]
      rw [pairsOf_cons, pairsOf_cons, ndPair_setHashNd_nil,
        upd1_hasKey_true (hasKey_pairsOf_head hc cs'), if_pos rfl, mapVal_cons, ndPair_fst,
        if_pos hc, mapVal_not_hasKey _ _ _ (not_hasKey_pairsOf (hc ▸ hnd.1)), hc]
    · rw [show setInto (c :: cs') s [] k = c :: setInto cs' s [] k by simp [setInto, updFirst, hc]]
      rw [pairsOf_cons, pairsOf_cons, ih hnd.2]
      by_cases hk : hasKey (pairsOf cs') s
      · rw [upd1_hasKey_true hk, upd1_hasKey_true (by rw [hasKey_pairsOf_tail hc]; exact hk),
          if_pos rfl, if_pos rfl, mapVal_cons, if_neg (by rw [ndPair_fst]; exact hc)]
      · rw [Bool.not_eq_true] at hk
        rw [upd1_hasKey_false hk, upd1_hasKey_false (by rw [hasKey_pairsOf_tail hc]; exact hk),
          List.cons_append]

theorem pairsOf_setInto_deep (cs : List Nd) (s r : Str) (rest' : List Str) (k : Str)
    (hnd : (cs.map ndName).Nodup) :
    pairsOf (setInto cs s (r :: rest') k) = upd1 false s [] (pairsOf cs) := by
  induction cs with
  | nil =>
    simp [setInto, updFirst, setHashNd, pairsOf, upd1, hasKey, alookup, newNd, ndPair, ndName, ndHash]
  | cons c cs' ih =>
    rw [List.map_cons, List.nodup_cons] at hnd
    by_cases hc : ndName c = s
    · rw [show setInto (c :: cs') s (r :: rest') k = setHashNd c (r :: rest') k :: cs'
          by simp [setInto, updFirst, hc]]
      rw [pairsOf_cons, pairsOf_cons, ndPair_setHashNd_deep,
        upd1_hasKey_true (hasKey_pairsOf_head hc cs')]
      simp
    · rw [show setInto (c :: cs') s (r :: rest') k = c :: setInto cs' s (r :: rest') k
          by simp [setInto, updFirst, hc]]
      rw [pairsOf_cons, pairsOf_cons, ih hnd.2]
      by_cases hk : hasKey (pairsOf cs') s
      · rw [upd1_hasKey_true hk, upd1_hasKey_true (by rw [hasKey_pairsOf_tail hc]; exact hk)]
        simp
      · rw [Bool.not_eq_true] at hk
        rw [upd1_hasKey_false hk, upd1_hasKey_false (by rw [hasKey_pairsOf_tail hc]; exact hk),
          List.cons_append]

theorem names_setInto (cs : List Nd) (s : Str) (rest : List Str) (k : Str) :
    (setInto cs s rest k).map ndName =
      (if s ∈ cs.map ndName then cs.map ndName else cs.map ndName ++ [s]) := by
  induction cs with
  | nil =>
    rw [show setInto [] s rest k = [setHashNd (newNd s) rest k] from by simp [setInto, updFirst]]
    rw [List.map_cons, List.map_nil, ndName_setHashNd]
    simp [newNd, ndName]
  | cons c cs' ih =>
    by_cases hc : ndName c = s
    · rw [show setInto (c :: cs') s rest k = setHashNd c rest k :: cs' by simp [setInto, updFirst, hc]]
      rw [List.map_cons, ndName_setHashNd, List.map_cons, if_pos (by rw [hc]; exact List.mem_cons_self _ _)]
    · rw [show setInto (c :: cs') s rest k = c :: setInto cs' s rest k by simp [setInto, updFirst, hc]]
      rw [List.map_cons, ih, List.map_cons]
      have hcs : ¬ s = ndName c := fun h => hc h.symm
      by_cases hm : s ∈ cs'.map ndName
      · rw [if_pos hm, if_pos (by exact List.mem_cons.2 (Or.inr hm))]
      · rw [if_neg hm, if_neg (by simp [hcs, hm]), List.cons_append]

theorem rootNames_nodup_setHashNd (t : Nd) (segs : List Str) (k : Str)
    (h : (rootNames t).Nodup) : (rootNames (setHashNd t segs k)).Nodup := by
  cases segs with
  | nil =>
    unfold rootNames
    rw [ndChildren_setHashNd_nil]
    exact h
  | cons s rest =>
    unfold rootNames at h ⊢
    rw [ndChildren_setHashNd_cons, names_setInto]
    by_cases hm : s ∈ (ndChildren t).map ndName
    · rw [if_pos hm]; exact h
    · rw [if_neg hm]
      have := List.Nodup.append h (List.nodup_singleton s) ?_
      · exact this
      · intro a ha hb
        rw [List.mem_singleton] at hb
        subst hb
        exact hm ha

theorem projRoot_setHashNd (t : Nd) (segs : List Str) (k : Str)
    (hnd : (rootNames t).Nodup) :
    projRoot (setHashNd t segs k) = projUpd (projRoot t) segs k := by
  cases segs with
  | nil =>
    unfold projRoot projUpd rawUpd
    rw [ndChildren_setHashNd_nil]
    exact (sortPairs_eq_self_of_sorted (sortPairs_sorted _)).symm
  | cons s rest =>
    unfold projRoot projUpd
    rw [ndChildren_setHashNd_cons]
    cases rest with
    | nil =>
      rw [pairsOf_setInto_nil _ _ _ hnd]
      simp only [rawUpd]
      exact (sortPairs_eq_of_perm (upd1_perm (sortPairs_perm _) true s k)).symm
    | cons r rest' =>
      rw [pairsOf_setInto_deep _ _ _ _ _ hnd]
      simp only [rawUpd]
      exact (sortPairs_eq_of_perm (upd1_perm (sortPairs_perm _) false s [])).symm

theorem projRoot_foldl (l : List (Str × Str)) : ∀ t : Nd, (rootNames t).Nodup →
    projRoot (l.foldl leafStep t)
      = l.foldl (fun z e => projUpd z (adderSegs e.1) (hashBytes e.2)) (projRoot t) := by
  induction l with
  | nil => intro t _; rfl
  | cons e es ih =>
    intro t hnd
    rw [List.foldl_cons, List.foldl_cons,
      ih (leafStep t e) (rootNames_nodup_setHashNd _ _ _ hnd)]
    unfold leafStep
    rw [projRoot_setHashNd t _ _ hnd]

theorem adderRun_tree (l : List (Str × Str)) : ∀ r : ARun,
    ((l.map (fun pd => AFile.aleaf pd.1 pd.2)).foldl adderAddFile r).tree
      = l.foldl leafStep r.tree := by
  induction l with
  | nil => intro r; rfl
  | cons e es ih =>
    intro r
    rw [List.map_cons, List.foldl_cons, List.foldl_cons, ih]
    rfl

theorem map_ndPair_insNd (x : Nd) (cs : List Nd) :
    (insNd x cs).map ndPair = insPair (ndPair x) (cs.map ndPair) := by
  induction cs with
  | nil => rfl
  | cons c cs' ih =>
    simp only [List.map_cons]
    by_cases h : pairLe (ndPair x) (ndPair c)
    · simp only [insNd, insPair, if_pos h, List.map_cons]
    · simp only [insNd, insPair, if_neg h, List.map_cons, ih]

theorem pairsOf_sortNds (cs : List Nd) : pairsOf (sortNds cs) = sortPairs (pairsOf cs) := by
  unfold sortNds sortPairs
  induction cs with
  | nil => rfl
  | cons c cs' ih =>
    rw [show pairsOf (c :: cs') = ndPair c :: pairsOf cs' from rfl, List.foldr_cons,
      List.foldr_cons, ← ih]
    exact map_ndPair_insNd c _

theorem ndToDir_fst (t : Nd) : (ndToDir t).1 = hashBytes (manifestOf (projRoot t)) := by
  unfold ndToDir manifestOf projRoot
  rw [← pairsOf_sortNds]
  unfold pairsOf
  rw [List.foldl_map]
  rfl

/-- C3 (amended): submitting the leaf files of two logically equal
trees — the same collection of (full path, bytes) pairs, with pairwise
distinct parsed paths — to a fresh MemFS Adder via `AddFile` in any
two orders and then calling `Finalize` yields the identical root store
path, because the synthesized root manifest sorts children
lexicographically by name.  (Submitting directories through `AddFile`
is excluded: see the counterexample.) -/
theorem c3_amended_leaf_order_determinism (l1 l2 : List (Str × Str))
    (hperm : l1.Perm l2) (hnd : (l1.map (fun e => adderSegs e.1)).Nodup) :
    adderRootHash l1 = adderRootHash l2 := by
  have hroot : ∀ l : List (Str × Str),
      adderRootHash l = "/mem/".data ++ (ndToDir (treeOf l)).1 := by
    intro l
    unfold adderRootHash adderRunFin adderFinalize treeOf
    rw [adderRun_tree l (adderInitOn [])]
    rfl
  rw [hroot l1, hroot l2, ndToDir_fst, ndToDir_fst]
  have hp : projRoot (treeOf l1) = projRoot (treeOf l2) := by
    unfold treeOf
    rw [projRoot_foldl l1 (newNd []) (by simp [rootNames, newNd, ndChildren]),
      projRoot_foldl l2 (newNd []) (by simp [rootNames, newNd, ndChildren])]
    refine hperm.foldl_eq' ?_ _
    intro x hx y hy z
    by_cases hxy : x = y
    · subst hxy; rfl
    · have hne : adderSegs x.1 ≠ adderSegs y.1 := by
        intro hc
        exact hxy (List.inj_on_of_nodup_map hnd hx hy hc)
      exact projUpd_comm z _ _ _ _ hne
  rw [hp]

/-- Witness for the amended C3: the same two leaves submitted in both
orders produce the same root path. -/
theorem c3_amended_witness :
    adderRootHash [("a.txt".data, "x".data), ("b/c.txt".data, "y".data)]
      = adderRootHash [("b/c.txt".data, "y".data), ("a.txt".data, "x".data)] :=
  c3_amended_leaf_order_determinism _ _ (by decide) (by decide)

/-- C3 counterexample: one logical tree (directory `a` holding
`a/b.txt` with bytes `x`) submitted to the Adder in two orders, leaf
first versus directory first.  When `AddFile` sees the directory
before its child, `toDir` snapshots an empty child list and records a
stale hash that `Finalize` bakes into the root manifest, so the two
root store paths differ — the claim's any-order determinism fails once
directories go through `AddFile`. -/
theorem c3_counterexample :
    (adderRunFin [.aleaf "/a/b.txt".data "x".data, .adir "/a".data]).1
      ≠ (adderRunFin [.adir "/a".data, .aleaf "/a/b.txt".data "x".data]).1 := by
  decide

/-! ## Claim C5 — at-most-once hook invocation -/

theorem callsOK_wAddFile (s : WSt) (p d : Str) (h : CallsOK s) :
    CallsOK (wAddFile s p d) := by
  simpa [CallsOK, wAddFile] using h

theorem callsOK_wCallAndAdd (s : WSt) (hk : HookF) (hP : CallsOK s) :
    CallsOK (wCallAndAdd s hk).1 := by
  unfold wCallAndAdd
  by_cases hf : hk.idn ∈ s.fired
  · simpa [hf] using hP
  · have hmark : CallsOK
        { s with fired := s.fired ++ [hk.idn], calls := s.calls ++ [hk.idn] } := by
      constructor
      · rw [List.nodup_append]
        exact ⟨hP.1, List.nodup_singleton _,
          fun a ha hb => hf ((List.mem_singleton.1 hb) ▸ hP.2 a ha)⟩
      · intro i hi
        rcases List.mem_append.1 hi with hi | hi
        · exact List.mem_append.2 (Or.inl (hP.2 i hi))
        · exact List.mem_append.2 (Or.inr hi)
    simp only [if_neg hf]
    cases hcb : hk.cb s.merk with
    | error e => simpa [hcb] using hmark
    | ok data =>
      simpa [hcb] using callsOK_wAddFile _ hk.path data hmark

theorem callsOK_wConsume (s : WSt) (h : CallsOK s) : CallsOK (stateOf (wConsume s)) := by
  unfold wConsume
  cases s.pending <;> simpa [stateOf, CallsOK] using h

theorem callsOK_wRemove (s : WSt) (i : Nat) (h : CallsOK s) : CallsOK (wRemove s i) := by
  simpa [CallsOK, wRemove] using h

theorem callsOK_scan (snap : List HookF) : ∀ (i : Nat) (s : WSt), CallsOK s →
    CallsOK (stateOf (wScanWaiting s snap i)) := by
  induction snap with
  | nil => intro i s h; simpa [wScanWaiting, stateOf] using h
  | cons hk rest ih =>
    intro i s h
    unfold wScanWaiting
    by_cases hr : hasReqs hk s.merk
    · rw [if_pos hr]
      have h1 := callsOK_wCallAndAdd s hk h
      split
      · next s1 e heq =>
        rw [heq] at h1
        simpa [stateOf] using h1
      · next s1 heq =>
        rw [heq] at h1
        have h1' : CallsOK s1 := h1
        have h2 := callsOK_wConsume (wRemove s1 i) (callsOK_wRemove s1 i h1')
        split
        · next s3 heq2 =>
          rw [heq2] at h2
          exact ih (i + 1) s3 (by simpa [stateOf] using h2)
        · next heq2 => exact h2
    · rw [if_neg hr]
      exact ih (i + 1) s h

theorem callsOK_wVisit (s : WSt) (l : WLeaf) (h : CallsOK s) :
    CallsOK (stateOf (wVisit s l)) := by
  unfold wVisit
  have hscan := callsOK_scan s.waiting 0 s h
  split
  · next s1 heq =>
    rw [heq] at hscan
    have hs1 : CallsOK s1 := hscan
    cases l with
    | hooked hk =>
      dsimp only
      by_cases hr : hasReqs hk s1.merk
      · rw [if_pos hr]
        have h1 := callsOK_wCallAndAdd s1 hk hs1
        split
        · next s2 e heq2 =>
          rw [heq2] at h1
          simpa [stateOf] using h1
        · next s2 heq2 =>
          rw [heq2] at h1
          exact callsOK_wConsume s2 h1
      · rw [if_neg hr]
        simpa [stateOf, CallsOK] using hs1
    | plain p d =>
      dsimp only
      exact callsOK_wConsume _ (callsOK_wAddFile s1 p d hs1)
  · next r heq => exact hscan

theorem callsOK_wWalk (ls : List WLeaf) : ∀ s : WSt, CallsOK s →
    CallsOK (stateOf (wWalk s ls)) := by
  induction ls with
  | nil => intro s h; simpa [wWalk, stateOf] using h
  | cons l rest ih =>
    intro s h
    unfold wWalk
    have hv := callsOK_wVisit s l h
    split
    · next s1 heq =>
      rw [heq] at hv
      exact ih s1 (by simpa [stateOf] using hv)
    · next r heq => exact hv

theorem callsOK_wEpilogue (snap : List HookF) : ∀ (i : Nat) (s : WSt), CallsOK s →
    CallsOK (stateOf (wEpilogue s snap i)) := by
  induction snap with
  | nil =>
    intro i s h
    simpa [wEpilogue, stateOf, CallsOK] using h
  | cons hk rest ih =>
    intro i s h
    unfold wEpilogue
    by_cases hr : hasReqs hk s.merk
    · rw [if_pos hr]
      have h1 := callsOK_wCallAndAdd s hk h
      split
      · next s1 e heq =>
        rw [heq] at h1
        simpa [stateOf] using h1
      · next s1 heq =>
        rw [heq] at h1
        have h1' : CallsOK s1 := h1
        exact ih (i + 1) (wRemove s1 i) (callsOK_wRemove s1 i h1')
    · rw [if_neg hr]
      simpa [stateOf] using h

/-- The initial state's invocation log is empty, hence disciplined. -/
theorem callsOK_wInit (pre : Store) : CallsOK (wInit pre) := by
  constructor
  · exact List.nodup_nil
  · intro i hi; cases hi

theorem callsOK_run (pre : Store) (leaves : List WLeaf) :
    CallsOK (writeWithHooks pre leaves).2.2 := by
  unfold writeWithHooks
  have hw := callsOK_wWalk leaves (wInit pre) (callsOK_wInit pre)
  generalize hW : wWalk (wInit pre) leaves = r
  rw [hW] at hw
  cases r with
  | failed e s => exact hw
  | stuck s => exact hw
  | cont s =>
    dsimp only
    have hs : CallsOK s := hw
    have he := callsOK_wEpilogue s.waiting 0 s hs
    generalize hE : wEpilogue s s.waiting 0 = r2
    rw [hE] at he
    cases r2 with
    | failed e s' => exact he
    | stuck s' => exact he
    | cont s' => exact he

/-- C5: in any WriteWithHooks run over any input tree, each hook
file's callback is invoked at most once — the once latch makes the
invocation log duplicate-free even when the same hook sits in the
waitingHooks list (possibly multiply, through the faulty removal) and
is also visited by the walk. -/
theorem c5_at_most_one_invocation (pre : Store) (t : WTree) (idn : Nat) :
    ((writeWithHooksTree pre t).2.2.calls).count idn ≤ 1 :=
  List.nodup_iff_count_le_one.1 (callsOK_run pre (wleaves t)).1 idn

/-! ## C1: rollback completeness — store and rollback lemmas -/

theorem map_fst_aset {β : Type} (l : List (Str × β)) (k : Str) (v : β) :
    (aset l k v).map Prod.fst =
      if hasKey l k = true then l.map Prod.fst else l.map Prod.fst ++ [k] := by
  induction l with
  | nil => simp [aset, hasKey, alookup]
  | cons e rest ih =>
    obtain ⟨k', v'⟩ := e
    rw [hasKey_cons]
    by_cases h : k' = k
    · subst h
      simp [aset]
    · rw [show aset ((k', v') :: rest) k v = (k', v') :: aset rest k v from by
        simp [aset, h]]
      simp only [if_neg h, List.map_cons, ih]
      by_cases hr : hasKey rest k = true
      · simp [hr]
      · simp [hr]

theorem map_snd_aset_not {β : Type} (l : List (Str × β)) (k : Str) (v : β)
    (h : hasKey l k = false) :
    (aset l k v).map Prod.snd = l.map Prod.snd ++ [v] := by
  induction l with
  | nil => simp [aset]
  | cons e rest ih =>
    obtain ⟨k', v'⟩ := e
    rw [hasKey_cons] at h
    by_cases hk : k' = k
    · rw [if_pos hk] at h; cases h
    · rw [if_neg hk] at h
      rw [show aset ((k', v') :: rest) k v = (k', v') :: aset rest k v from by
        simp [aset, hk]]
      simp [ih h]

theorem hasKey_aset {β : Type} (l : List (Str × β)) (k : Str) (v : β) (x : Str) :
    hasKey (aset l k v) x = true ↔ (hasKey l x = true ∨ x = k) := by
  constructor
  · intro hm
    have hm' := (hasKey_iff_mem _ _).1 hm
    rw [map_fst_aset] at hm'
    by_cases h : hasKey l k = true
    · rw [if_pos h] at hm'
      exact Or.inl ((hasKey_iff_mem l x).2 hm')
    · rw [if_neg h] at hm'
      rcases List.mem_append.1 hm' with hm2 | hm2
      · exact Or.inl ((hasKey_iff_mem l x).2 hm2)
      · exact Or.inr (List.mem_singleton.1 hm2)
  · intro hor
    refine (hasKey_iff_mem _ _).2 ?_
    rw [map_fst_aset]
    by_cases h : hasKey l k = true
    · rw [if_pos h]
      rcases hor with hm | hm
      · exact (hasKey_iff_mem l x).1 hm
      · exact hm ▸ (hasKey_iff_mem l k).1 h
    · rw [if_neg h]
      rcases hor with hm | hm
      · exact List.mem_append.2 (Or.inl ((hasKey_iff_mem l x).1 hm))
      · exact List.mem_append.2 (Or.inr (List.mem_singleton.2 hm))

theorem keys_nodup_aset {β : Type} (l : List (Str × β)) (k : Str) (v : β)
    (h : (l.map Prod.fst).Nodup) : ((aset l k v).map Prod.fst).Nodup := by
  rw [map_fst_aset]
  by_cases hk : hasKey l k = true
  · rw [if_pos hk]; exact h
  · rw [if_neg hk]
    have hnm : k ∉ l.map Prod.fst := fun hm => hk ((hasKey_iff_mem l k).2 hm)
    exact (List.nodup_append).2 ⟨h, List.nodup_singleton _,
      fun a ha hb => hnm ((List.mem_singleton.1 hb) ▸ ha)⟩

theorem hasKey_deleteStore (st : Store) (k' x : Str) :
    hasKey (deleteStore st k') x = true ↔ (hasKey st x = true ∧ x ≠ k') := by
  induction st with
  | nil => simp [deleteStore, hasKey, alookup]
  | cons e rest ih =>
    obtain ⟨k0, v0⟩ := e
    by_cases h0 : k0 = k'
    · subst h0
      rw [show deleteStore ((k0, v0) :: rest) k0 = deleteStore rest k0 from by
        simp [deleteStore]]
      rw [ih, hasKey_cons]
      by_cases hx : k0 = x
      · subst hx; simp
      · simp [hx]
    · rw [show deleteStore ((k0, v0) :: rest) k' = (k0, v0) :: deleteStore rest k' from by
        simp [deleteStore, h0]]
      rw [hasKey_cons, hasKey_cons]
      by_cases hx : k0 = x
      · subst hx
        rw [if_pos rfl, if_pos rfl]
        constructor
        · intro _; exact ⟨rfl, h0⟩
        · intro _; rfl
      · rw [if_neg hx, if_neg hx]
        exact ih

theorem keys_nodup_deleteStore (st : Store) (k' : Str)
    (h : (st.map Prod.fst).Nodup) : ((deleteStore st k').map Prod.fst).Nodup :=
  List.Nodup.sublist (List.Sublist.map Prod.fst (List.filter_sublist st)) h

theorem mem_drop_take {α : Type} {a : α} {l : List α} (i : Nat) (h : a ∈ l) :
    a ∈ l.drop i ++ l.take (i + 1) := by
  rw [← List.take_append_drop i l] at h
  rcases List.mem_append.1 h with h | h
  · refine List.mem_append.2 (Or.inr ?_)
    have h1 : l.take i = (l.take (i + 1)).take i := by
      rw [List.take_take]
      congr 1
      exact (Nat.min_eq_left (Nat.le_succ i)).symm
    rw [h1] at h
    exact List.take_subset _ _ h
  · exact List.mem_append.2 (Or.inl h)

theorem memDelete_mem_key (st : Store) (k' : Str) (hs : '/' ∉ k') :
    memDelete st ("/mem/".data ++ k') = .ok (deleteStore st k') := by
  simp only [memDelete]
  rw [trimPre_append, splitSep_eq_single hs]

theorem rollback_fold_hasKey (mk : List (Str × Str)) : ∀ st : Store,
    (∀ v ∈ mk.map Prod.snd, ∃ k, '/' ∉ k ∧ v = "/mem/".data ++ k) →
    ∀ x, hasKey (mk.foldl
        (fun st kv =>
          match memDelete st kv.2 with
          | .ok st' => st'
          | .error _ => st) st) x = true ↔
      (hasKey st x = true ∧ ∀ k, ("/mem/".data ++ k) ∈ mk.map Prod.snd → x ≠ k) := by
  induction mk with
  | nil =>
    intro st _ x
    simp
  | cons kv rest ih =>
    intro st hvals x
    obtain ⟨k0, hs0, hv0⟩ := hvals kv.2 (List.mem_cons_self _ _)
    rw [List.foldl_cons]
    rw [show (match memDelete st kv.2 with
          | .ok st' => st'
          | .error _ => st) = deleteStore st k0 from by
      rw [hv0, memDelete_mem_key st k0 hs0]]
    rw [ih (deleteStore st k0) (fun v hv => hvals v (List.mem_cons_of_mem _ hv))]
    rw [hasKey_deleteStore]
    constructor
    · rintro ⟨⟨hst, hxk0⟩, hall⟩
      refine ⟨hst, ?_⟩
      intro k hkmem
      rcases List.mem_cons.1 hkmem with h | h
      · have hkk : k = k0 := by
          have heq : "/mem/".data ++ k = "/mem/".data ++ k0 := by rw [h]; exact hv0
          exact List.append_cancel_left heq
        exact hkk ▸ hxk0
      · exact hall k h
    · rintro ⟨hst, hall⟩
      refine ⟨⟨hst, hall k0 (List.mem_cons.2 (Or.inl hv0.symm))⟩,
        fun k hk => hall k (List.mem_cons_of_mem _ hk)⟩

theorem rollback_fold_nodup (mk : List (Str × Str)) : ∀ st : Store,
    (∀ v ∈ mk.map Prod.snd, ∃ k, '/' ∉ k ∧ v = "/mem/".data ++ k) →
    (st.map Prod.fst).Nodup →
    ((mk.foldl
        (fun st kv =>
          match memDelete st kv.2 with
          | .ok st' => st'
          | .error _ => st) st).map Prod.fst).Nodup := by
  induction mk with
  | nil => intro st _ h; exact h
  | cons kv rest ih =>
    intro st hvals h
    obtain ⟨k0, hs0, hv0⟩ := hvals kv.2 (List.mem_cons_self _ _)
    rw [List.foldl_cons]
    rw [show (match memDelete st kv.2 with
          | .ok st' => st'
          | .error _ => st) = deleteStore st k0 from by
      rw [hv0, memDelete_mem_key st k0 hs0]]
    exact ih (deleteStore st k0) (fun v hv => hvals v (List.mem_cons_of_mem _ hv))
      (keys_nodup_deleteStore st k0 h)

theorem wRollback_hasKey (pre : Store) (s : WSt) (hC : CoreOK pre s)
    (hfresh : ∀ k ∈ s.written, hasKey pre k = false) (x : Str) :
    hasKey (wRollback s) x = true ↔ hasKey pre x = true := by
  obtain ⟨hnd, hiff, hwm, hmv, hsl⟩ := hC
  have hvals : ∀ v ∈ s.merk.map Prod.snd, ∃ k, '/' ∉ k ∧ v = "/mem/".data ++ k := by
    intro v hv
    obtain ⟨k, hkw, hkv⟩ := hmv v hv
    exact ⟨k, hsl k hkw, hkv⟩
  rw [show wRollback s = s.merk.foldl
      (fun st kv =>
        match memDelete st kv.2 with
        | .ok st' => st'
        | .error _ => st) s.store from rfl]
  rw [rollback_fold_hasKey s.merk s.store hvals x]
  constructor
  · rintro ⟨hst, hall⟩
    rcases (hiff x).1 hst with h | h
    · exact h
    · exact absurd rfl (hall x (hwm x h))
  · intro hpre
    refine ⟨(hiff x).2 (Or.inl hpre), ?_⟩
    intro k hkmem hxk
    obtain ⟨k2, hk2w, hk2v⟩ := hmv _ hkmem
    have hkk : k = k2 := List.append_cancel_left hk2v
    have : hasKey pre k = false := hfresh k (hkk ▸ hk2w)
    rw [hxk] at hpre
    rw [hpre] at this
    cases this

theorem wRollback_count (pre : Store) (s : WSt) (hC : CoreOK pre s)
    (hpre : (keysOf pre).Nodup)
    (hfresh : ∀ k ∈ s.written, hasKey pre k = false) :
    objectCount (wRollback s) = objectCount pre := by
  have hvals : ∀ v ∈ s.merk.map Prod.snd, ∃ k, '/' ∉ k ∧ v = "/mem/".data ++ k := by
    intro v hv
    obtain ⟨k, hkw, hkv⟩ := hC.2.2.2.1 v hv
    exact ⟨k, hC.2.2.2.2 k hkw, hkv⟩
  have hndpost : ((wRollback s).map Prod.fst).Nodup :=
    rollback_fold_nodup s.merk s.store hvals hC.1
  have hmem : ∀ x, x ∈ (wRollback s).map Prod.fst ↔ x ∈ pre.map Prod.fst := by
    intro x
    rw [← hasKey_iff_mem, ← hasKey_iff_mem]
    exact wRollback_hasKey pre s hC hfresh x
  have hfs : ((wRollback s).map Prod.fst).toFinset = (pre.map Prod.fst).toFinset :=
    Finset.ext (fun x => by simp only [List.mem_toFinset]; exact hmem x)
  have h1 : objectCount (wRollback s) = ((wRollback s).map Prod.fst).length :=
    (List.length_map _ _).symm
  have h2 : objectCount pre = (pre.map Prod.fst).length :=
    (List.length_map _ _).symm
  have hpre' : (pre.map Prod.fst).Nodup := hpre
  rw [h1, h2, ← List.toFinset_card_of_nodup hndpost, ← List.toFinset_card_of_nodup hpre', hfs]

theorem coreOK_wAddFile (pre : Store) (s : WSt) (path data : Str)
    (hC : CoreOK pre s) (hm : hasKey s.merk path = false) :
    CoreOK pre (wAddFile s path data) := by
  obtain ⟨hnd, hiff, hwm, hmv, hsl⟩ := hC
  have hwr : (wAddFile s path data).written = s.written ++ [hashBytes data] := rfl
  have hsnd : ((wAddFile s path data).merk).map Prod.snd =
      s.merk.map Prod.snd ++ ["/mem/".data ++ hashBytes data] := by
    rw [show (wAddFile s path data).merk =
        aset s.merk path ("/mem/".data ++ hashBytes data) from rfl]
    exact map_snd_aset_not s.merk path _ hm
  refine ⟨?_, ?_, ?_, ?_, ?_⟩
  · exact keys_nodup_aset s.store (hashBytes data) _ hnd
  · intro k
    rw [hwr]
    constructor
    · intro h
      rcases (hasKey_aset s.store (hashBytes data) _ k).1 h with h' | h'
      · rcases (hiff k).1 h' with h2 | h2
        · exact Or.inl h2
        · exact Or.inr (List.mem_append.2 (Or.inl h2))
      · exact Or.inr (List.mem_append.2 (Or.inr (List.mem_singleton.2 h')))
    · intro h
      refine (hasKey_aset s.store (hashBytes data) _ k).2 ?_
      rcases h with h' | h'
      · exact Or.inl ((hiff k).2 (Or.inl h'))
      · rcases List.mem_append.1 h' with h2 | h2
        · exact Or.inl ((hiff k).2 (Or.inr h2))
        · exact Or.inr (List.mem_singleton.1 h2)
  · intro k hk
    rw [hsnd]
    rw [hwr] at hk
    rcases List.mem_append.1 hk with h2 | h2
    · exact List.mem_append.2 (Or.inl (hwm k h2))
    · rw [List.mem_singleton.1 h2]
      exact List.mem_append.2 (Or.inr (List.mem_singleton.2 rfl))
  · intro v hv
    rw [hsnd] at hv
    rw [hwr]
    rcases List.mem_append.1 hv with h2 | h2
    · obtain ⟨k, hk1, hk2⟩ := hmv v h2
      exact ⟨k, List.mem_append.2 (Or.inl hk1), hk2⟩
    · exact ⟨hashBytes data, List.mem_append.2 (Or.inr (List.mem_singleton.2 rfl)),
        List.mem_singleton.1 h2⟩
  · intro k hk
    rw [hwr] at hk
    rcases List.mem_append.1 hk with h2 | h2
    · exact hsl k h2
    · rw [List.mem_singleton.1 h2]
      exact slash_not_mem_hashBytes data

theorem waitOK_tail (s : WSt) (l : WLeaf) (ls : List WLeaf)
    (hW : WaitOK s (l :: ls)) : WaitOK s ls := by
  obtain ⟨w1, w2, w3, w4, w5⟩ := hW
  rw [List.map_cons] at w1
  refine ⟨(List.nodup_cons.1 w1).2, ?_, w3, ?_, w5⟩
  · intro p hp hmem
    exact w2 p hp (List.mem_cons_of_mem _ hmem)
  · intro hw hwm hmem
    exact w4 hw hwm (List.mem_cons_of_mem _ hmem)

theorem waitOK_wAddFile (s : WSt) (p d : Str) (rem : List WLeaf)
    (hW : WaitOK s rem) (hm : hasKey s.merk p = false)
    (hnp : p ∉ rem.map wleafPath)
    (hp4 : ∀ hw ∈ s.waiting, hw.path ≠ p) :
    WaitOK (wAddFile s p d) rem := by
  obtain ⟨w1, w2, w3, w4, w5⟩ := hW
  have hkeys : ((wAddFile s p d).merk).map Prod.fst = s.merk.map Prod.fst ++ [p] := by
    rw [show (wAddFile s p d).merk = aset s.merk p ("/mem/".data ++ hashBytes d) from rfl]
    rw [map_fst_aset, if_neg (by rw [hm]; exact Bool.false_ne_true)]
  refine ⟨w1, ?_, ?_, w4, w5⟩
  · intro q hq
    rw [hkeys] at hq
    rcases List.mem_append.1 hq with h2 | h2
    · exact w2 q h2
    · exact (List.mem_singleton.1 h2) ▸ hnp
  · intro hw hwm hnf hmem
    rw [hkeys] at hmem
    rcases List.mem_append.1 hmem with h2 | h2
    · exact w3 hw hwm hnf h2
    · exact hp4 hw hwm (List.mem_singleton.1 h2)

theorem invOK_wCallAndAdd (pre : Store) (s : WSt) (h : HookF)
    (hC : CoreOK pre s)
    (hFresh : h.idn ∉ s.fired → hasKey s.merk h.path = false) :
    CoreOK pre (wCallAndAdd s h).1
    ∧ (wCallAndAdd s h).1.waiting = s.waiting
    ∧ (∀ p ∈ ((wCallAndAdd s h).1.merk).map Prod.fst,
        p ∈ s.merk.map Prod.fst ∨ p = h.path)
    ∧ (∀ i, i ∈ (wCallAndAdd s h).1.fired ↔ (i ∈ s.fired ∨ i = h.idn)) := by
  unfold wCallAndAdd
  by_cases hf : h.idn ∈ s.fired
  · rw [if_pos hf]
    refine ⟨hC, rfl, fun p hp => Or.inl hp, fun i => ⟨fun hi => Or.inl hi, ?_⟩⟩
    intro hi
    rcases hi with hi | hi
    · exact hi
    · rw [hi]; exact hf
  · rw [if_neg hf]
    have hC1 : CoreOK pre
        { s with fired := s.fired ++ [h.idn], calls := s.calls ++ [h.idn] } := hC
    have hfired1 : ∀ i, i ∈ s.fired ++ [h.idn] ↔ (i ∈ s.fired ∨ i = h.idn) := by
      intro i
      rw [List.mem_append, List.mem_singleton]
  
    cases hcb : h.cb s.merk with
    | error e =>
      exact ⟨hC1, rfl, fun p hp => Or.inl hp, hfired1⟩
    | ok data =>
      refine ⟨coreOK_wAddFile pre _ h.path data hC1 (hFresh hf), rfl, ?_, hfired1⟩
      intro p hp
      have hkeys : ((wAddFile
          { s with fired := s.fired ++ [h.idn], calls := s.calls ++ [h.idn] }
          h.path data).merk).map Prod.fst = s.merk.map Prod.fst ++ [h.path] := by
        rw [show (wAddFile
            { s with fired := s.fired ++ [h.idn], calls := s.calls ++ [h.idn] }
            h.path data).merk = aset s.merk h.path ("/mem/".data ++ hashBytes data)
          from rfl]
        rw [map_fst_aset, if_neg (by rw [hFresh hf]; exact Bool.false_ne_true)]
      rw [hkeys] at hp
      rcases List.mem_append.1 hp with h2 | h2
      · exact Or.inl h2
      · exact Or.inr (List.mem_singleton.1 h2)

theorem waitOK_wCallAndAdd (s : WSt) (h : HookF) (rem : List WLeaf)
    (hW : WaitOK s rem)
    (hwaiting : (wCallAndAdd s h).1.waiting = s.waiting)
    (hmerk : ∀ p ∈ ((wCallAndAdd s h).1.merk).map Prod.fst,
        p ∈ s.merk.map Prod.fst ∨ p = h.path)
    (hfired : ∀ i, i ∈ (wCallAndAdd s h).1.fired ↔ (i ∈ s.fired ∨ i = h.idn))
    (hA : h.path ∉ rem.map wleafPath)
    (hB : ∀ hw ∈ s.waiting, hw.idn ≠ h.idn → hw.path ≠ h.path) :
    WaitOK (wCallAndAdd s h).1 rem := by
  obtain ⟨w1, w2, w3, w4, w5⟩ := hW
  refine ⟨w1, ?_, ?_, ?_, ?_⟩
  · intro p hp
    rcases hmerk p hp with hp' | hp'
    · exact w2 p hp'
    · exact hp' ▸ hA
  · intro hw hwmem hnf
    rw [hwaiting] at hwmem
    have hnf' : hw.idn ∉ s.fired := fun hin => hnf ((hfired hw.idn).2 (Or.inl hin))
    have hne : hw.idn ≠ h.idn := fun heq => hnf ((hfired hw.idn).2 (Or.inr heq))
    intro hmem
    rcases hmerk _ hmem with hp' | hp'
    · exact w3 hw hwmem hnf' hp'
    · exact hB hw hwmem hne hp'
  · intro hw hwmem
    rw [hwaiting] at hwmem
    exact w4 hw hwmem
  · intro h1 h1m h2 h2m
    rw [hwaiting] at h1m h2m
    exact w5 h1 h1m h2 h2m

theorem invOK_wRemove (pre : Store) (s : WSt) (i : Nat) (rem : List WLeaf)
    (hC : CoreOK pre s) (hW : WaitOK s rem) :
    CoreOK pre (wRemove s i) ∧ WaitOK (wRemove s i) rem := by
  obtain ⟨w1, w2, w3, w4, w5⟩ := hW
  have hsub : ∀ hw ∈ (wRemove s i).waiting, hw ∈ s.waiting := by
    intro hw hwm
    rcases List.mem_append.1 hwm with h2 | h2
    · exact List.drop_subset _ _ h2
    · exact List.take_subset _ _ h2
  refine ⟨hC, w1, w2, ?_, ?_, ?_⟩
  · intro hw hwm hnf
    exact w3 hw (hsub hw hwm) hnf
  · intro hw hwm
    exact w4 hw (hsub hw hwm)
  · intro h1 h1m h2 h2m
    exact w5 h1 (hsub h1 h1m) h2 (hsub h2 h2m)

theorem coreOK_wConsume (pre : Store) (s : WSt) (h : CoreOK pre s) :
    CoreOK pre (stateOf (wConsume s)) := by
  unfold wConsume
  cases s.pending <;> exact h

theorem waitOK_wConsume (s : WSt) (rem : List WLeaf) (h : WaitOK s rem) :
    WaitOK (stateOf (wConsume s)) rem := by
  unfold wConsume
  cases s.pending <;> exact h

theorem wConsume_waiting (s : WSt) : (stateOf (wConsume s)).waiting = s.waiting := by
  unfold wConsume
  cases s.pending <;> rfl

theorem inv_scan (pre : Store) (rem : List WLeaf) (snap : List HookF) :
    ∀ (i : Nat) (s : WSt),
    (∀ hk ∈ snap, hk ∈ s.waiting) → CoreOK pre s → WaitOK s rem →
    CoreOK pre (stateOf (wScanWaiting s snap i)) ∧
      ∀ s', wScanWaiting s snap i = .cont s' → WaitOK s' rem := by
  induction snap with
  | nil =>
    intro i s _ hC hW
    refine ⟨hC, ?_⟩
    intro s' heq
    exact (WRes.cont.inj heq) ▸ hW
  | cons hk rest ih =>
    intro i s hsnap hC hW
    unfold wScanWaiting
    by_cases hr : hasReqs hk s.merk
    · rw [if_pos hr]
      have hkmem : hk ∈ s.waiting := hsnap hk (List.mem_cons_self _ _)
      have hFresh : hk.idn ∉ s.fired → hasKey s.merk hk.path = false := by
        intro hnf
        have hni := hW.2.2.1 hk hkmem hnf
        cases hv : hasKey s.merk hk.path
        · rfl
        · exact False.elim (hni ((hasKey_iff_mem _ _).1 hv))
      obtain ⟨hC1, hwaiting, hmerk, hfired⟩ := invOK_wCallAndAdd pre s hk hC hFresh
      have hA : hk.path ∉ rem.map wleafPath := hW.2.2.2.1 hk hkmem
      have hB : ∀ hw ∈ s.waiting, hw.idn ≠ hk.idn → hw.path ≠ hk.path :=
        fun hw hwm hne => hW.2.2.2.2 hw hwm hk hkmem hne
      have hW1 := waitOK_wCallAndAdd s hk rem hW hwaiting hmerk hfired hA hB
      generalize hq : wCallAndAdd s hk = q
      rw [hq] at hC1 hW1 hwaiting
      obtain ⟨s1, o⟩ := q
      cases o with
      | some e =>
        dsimp only
        exact ⟨hC1, fun s' heq => WRes.noConfusion heq⟩
      | none =>
        dsimp only
        obtain ⟨hC2, hW2⟩ := invOK_wRemove pre s1 i rem hC1 hW1
        have hc3 := coreOK_wConsume pre (wRemove s1 i) hC2
        have hw3 := waitOK_wConsume (wRemove s1 i) rem hW2
        have hwt := wConsume_waiting (wRemove s1 i)
        generalize hq2 : wConsume (wRemove s1 i) = q2
        rw [hq2] at hc3 hw3 hwt
        cases q2 with
        | cont s3 =>
          dsimp only
          have hsnap' : ∀ hx ∈ rest, hx ∈ s3.waiting := by
            intro hx hxm
            have hmem1 : hx ∈ s.waiting := hsnap hx (List.mem_cons_of_mem _ hxm)
            have hww : s1.waiting = s.waiting := hwaiting
            rw [← hww] at hmem1
            have hmem2 : hx ∈ (wRemove s1 i).waiting := mem_drop_take i hmem1
            have hwt' : s3.waiting = (wRemove s1 i).waiting := hwt
            rw [hwt']
            exact hmem2
          exact ih (i + 1) s3 hsnap' hc3 hw3
        | failed e s3 =>
          dsimp only
          exact ⟨hc3, fun s' heq => WRes.noConfusion heq⟩
        | stuck s3 =>
          dsimp only
          exact ⟨hc3, fun s' heq => WRes.noConfusion heq⟩
    · rw [if_neg hr]
      exact ih (i + 1) s (fun hx hxm => hsnap hx (List.mem_cons_of_mem _ hxm)) hC hW

theorem inv_visit (pre : Store) (s : WSt) (l : WLeaf) (ls : List WLeaf)
    (hC : CoreOK pre s) (hW : WaitOK s (l :: ls)) :
    CoreOK pre (stateOf (wVisit s l)) ∧
      ∀ s', wVisit s l = .cont s' → WaitOK s' ls := by
  unfold wVisit
  obtain ⟨hCs, hWs⟩ := inv_scan pre (l :: ls) s.waiting 0 s (fun hk h => h) hC hW
  generalize hq : wScanWaiting s s.waiting 0 = q
  rw [hq] at hCs hWs
  cases q with
  | failed e s1 =>
    dsimp only
    exact ⟨hCs, fun s' heq => WRes.noConfusion heq⟩
  | stuck s1 =>
    dsimp only
    exact ⟨hCs, fun s' heq => WRes.noConfusion heq⟩
  | cont s1 =>
    dsimp only
    have hC1 : CoreOK pre s1 := hCs
    have hW1 : WaitOK s1 (l :: ls) := hWs s1 rfl
    cases l with
    | plain p d =>
      dsimp only
      have hm : hasKey s1.merk p = false := by
        cases hv : hasKey s1.merk p
        · rfl
        · exact False.elim
            (hW1.2.1 p ((hasKey_iff_mem _ _).1 hv) (by simp [wleafPath]))
      have hnp : p ∉ ls.map wleafPath := by
        have hnd := hW1.1
        rw [List.map_cons] at hnd
        exact (List.nodup_cons.1 hnd).1
      have hp4 : ∀ hw ∈ s1.waiting, hw.path ≠ p := by
        intro hw hwm heqp
        exact hW1.2.2.2.1 hw hwm (by rw [heqp]; simp [wleafPath])
      have htail := waitOK_tail s1 (WLeaf.plain p d) ls hW1
      have hCadd := coreOK_wAddFile pre s1 p d hC1 hm
      have hWadd := waitOK_wAddFile s1 p d ls htail hm hnp hp4
      have hc := coreOK_wConsume pre (wAddFile s1 p d) hCadd
      have hwc := waitOK_wConsume (wAddFile s1 p d) ls hWadd
      generalize hq2 : wConsume (wAddFile s1 p d) = q2
      rw [hq2] at hc hwc
      cases q2 with
      | cont s2 =>
        exact ⟨hc, fun s' heq => (WRes.cont.inj heq) ▸ hwc⟩
      | failed e s2 =>
        exact ⟨hc, fun s' heq => WRes.noConfusion heq⟩
      | stuck s2 =>
        exact ⟨hc, fun s' heq => WRes.noConfusion heq⟩
    | hooked hk =>
      dsimp only
      by_cases hr : hasReqs hk s1.merk
      · rw [if_pos hr]
        have hFresh : hk.idn ∉ s1.fired → hasKey s1.merk hk.path = false := by
          intro _
          cases hv : hasKey s1.merk hk.path
          · rfl
          · exact False.elim
              (hW1.2.1 hk.path ((hasKey_iff_mem _ _).1 hv) (by simp [wleafPath]))
        obtain ⟨hC1', hwaiting, hmerk, hfired⟩ := invOK_wCallAndAdd pre s1 hk hC1 hFresh
        have htail := waitOK_tail s1 (WLeaf.hooked hk) ls hW1
        have hA : hk.path ∉ ls.map wleafPath := by
          have hnd := hW1.1
          rw [List.map_cons] at hnd
          exact (List.nodup_cons.1 hnd).1
        have hB : ∀ hw ∈ s1.waiting, hw.idn ≠ hk.idn → hw.path ≠ hk.path := by
          intro hw hwm _ heqp
          exact hW1.2.2.2.1 hw hwm (by rw [heqp]; simp [wleafPath])
        have hW1' := waitOK_wCallAndAdd s1 hk ls htail hwaiting hmerk hfired hA hB
        generalize hq2 : wCallAndAdd s1 hk = q2
        rw [hq2] at hC1' hW1'
        obtain ⟨s2, o⟩ := q2
        cases o with
        | some e =>
          dsimp only
          exact ⟨hC1', fun s' heq => WRes.noConfusion heq⟩
        | none =>
          dsimp only
          have hc := coreOK_wConsume pre s2 hC1'
          have hwc := waitOK_wConsume s2 ls hW1'
          generalize hq3 : wConsume s2 = q3
          rw [hq3] at hc hwc
          cases q3 with
          | cont s3 =>
            exact ⟨hc, fun s' heq => (WRes.cont.inj heq) ▸ hwc⟩
          | failed e s3 =>
            exact ⟨hc, fun s' heq => WRes.noConfusion heq⟩
          | stuck s3 =>
            exact ⟨hc, fun s' heq => WRes.noConfusion heq⟩
      · rw [if_neg hr]
        refine ⟨hC1, ?_⟩
        intro s' heq
        have hs' := WRes.cont.inj heq
        subst hs'
        obtain ⟨w1, w2, w3, w4, w5⟩ := hW1
        rw [List.map_cons] at w1
        have w1h := (List.nodup_cons.1 w1).1
        have w1t := (List.nodup_cons.1 w1).2
        refine ⟨w1t, ?_, ?_, ?_, ?_⟩
        · intro p hp hmem
          exact w2 p hp (List.mem_cons_of_mem _ hmem)
        · intro hw hwm hnf hmem
          rcases List.mem_append.1 hwm with hwm' | hwm'
          · exact w3 hw hwm' hnf hmem
          · have hehw : hw = hk := List.mem_singleton.1 hwm'
            subst hehw
            exact w2 hw.path hmem (by simp [wleafPath])
        · intro hw hwm
          rcases List.mem_append.1 hwm with hwm' | hwm'
          · intro hmem
            exact w4 hw hwm' (List.mem_cons_of_mem _ hmem)
          · have hehw : hw = hk := List.mem_singleton.1 hwm'
            subst hehw
            exact w1h
        · intro ha ham hb hbm hne
          rcases List.mem_append.1 ham with ham' | ham' <;>
            rcases List.mem_append.1 hbm with hbm' | hbm'
          · exact w5 ha ham' hb hbm' hne
          · have hb' : hb = hk := List.mem_singleton.1 hbm'
            subst hb'
            intro heqp
            exact w4 ha ham' (by rw [heqp]; simp [wleafPath])
          · have ha' : ha = hk := List.mem_singleton.1 ham'
            subst ha'
            intro heqp
            exact w4 hb hbm' (by rw [← heqp]; simp [wleafPath])
          · have ha' : ha = hk := List.mem_singleton.1 ham'
            have hb' : hb = hk := List.mem_singleton.1 hbm'
            subst ha'
            subst hb'
            exact absurd rfl hne

theorem inv_walk (pre : Store) (ls : List WLeaf) : ∀ s : WSt,
    CoreOK pre s → WaitOK s ls →
    CoreOK pre (stateOf (wWalk s ls)) ∧
      ∀ s', wWalk s ls = .cont s' → WaitOK s' [] := by
  induction ls with
  | nil =>
    intro s hC hW
    exact ⟨hC, fun s' heq => (WRes.cont.inj heq) ▸ hW⟩
  | cons l rest ih =>
    intro s hC hW
    unfold wWalk
    obtain ⟨hCv, hWv⟩ := inv_visit pre s l rest hC hW
    generalize hq : wVisit s l = q
    rw [hq] at hCv hWv
    cases q with
    | cont s1 =>
      dsimp only
      exact ih s1 hCv (hWv s1 rfl)
    | failed e s1 =>
      dsimp only
      exact ⟨hCv, fun s' heq => WRes.noConfusion heq⟩
    | stuck s1 =>
      dsimp only
      exact ⟨hCv, fun s' heq => WRes.noConfusion heq⟩

theorem inv_epi (pre : Store) (snap : List HookF) : ∀ (i : Nat) (s : WSt),
    (∀ hk ∈ snap, hk ∈ s.waiting) → CoreOK pre s → WaitOK s [] →
    ∀ e s', wEpilogue s snap i = .failed e s' → CoreOK pre s' := by
  induction snap with
  | nil =>
    intro i s _ _ _ e s' heq
    exact WRes.noConfusion heq
  | cons hk rest ih =>
    intro i s hsnap hC hW e s' heq
    unfold wEpilogue at heq
    by_cases hr : hasReqs hk s.merk
    · rw [if_pos hr] at heq
      have hkmem : hk ∈ s.waiting := hsnap hk (List.mem_cons_self _ _)
      have hFresh : hk.idn ∉ s.fired → hasKey s.merk hk.path = false := by
        intro hnf
        have hni := hW.2.2.1 hk hkmem hnf
        cases hv : hasKey s.merk hk.path
        · rfl
        · exact False.elim (hni ((hasKey_iff_mem _ _).1 hv))
      obtain ⟨hC1, hwaiting, hmerk, hfired⟩ := invOK_wCallAndAdd pre s hk hC hFresh
      have hA : hk.path ∉ ([] : List WLeaf).map wleafPath := by simp
      have hB : ∀ hw ∈ s.waiting, hw.idn ≠ hk.idn → hw.path ≠ hk.path :=
        fun hw hwm hne => hW.2.2.2.2 hw hwm hk hkmem hne
      have hW1 := waitOK_wCallAndAdd s hk [] hW hwaiting hmerk hfired hA hB
      revert heq
      generalize hq : wCallAndAdd s hk = q
      rw [hq] at hC1 hW1 hwaiting
      obtain ⟨s1, o⟩ := q
      cases o with
      | some e2 =>
        intro heq
        dsimp only at heq
        have hss : s1 = s' := (WRes.failed.inj heq).2
        exact hss ▸ hC1
      | none =>
        intro heq
        dsimp only at heq
        obtain ⟨hC2, hW2⟩ := invOK_wRemove pre s1 i [] hC1 hW1
        have hsnap' : ∀ hx ∈ rest, hx ∈ (wRemove s1 i).waiting := by
          intro hx hxm
          have hmem1 : hx ∈ s.waiting := hsnap hx (List.mem_cons_of_mem _ hxm)
          have hww : s1.waiting = s.waiting := hwaiting
          rw [← hww] at hmem1
          exact mem_drop_take i hmem1
        exact ih (i + 1) (wRemove s1 i) hsnap' hC2 hW2 e s' heq
    · rw [if_neg hr] at heq
      exact (WRes.failed.inj heq).2 ▸ hC

theorem coreOK_run_errored (pre : Store) (leaves : List WLeaf)
    (h1 : (keysOf pre).Nodup) (h2 : (leaves.map wleafPath).Nodup)
    (he : isErrored (writeWithHooks pre leaves).1 = true) :
    CoreOK pre (writeWithHooks pre leaves).2.2 ∧
      (writeWithHooks pre leaves).2.1 = wRollback ((writeWithHooks pre leaves).2.2) := by
  have hC0 : CoreOK pre (wInit pre) := by
    refine ⟨h1, ?_, ?_, ?_, ?_⟩
    · intro k
      constructor
      · exact fun h => Or.inl h
      · intro h
        rcases h with h | h
        · exact h
        · cases h
    · intro k hk
      cases hk
    · intro v hv
      cases hv
    · intro k hk
      cases hk
  have hW0 : WaitOK (wInit pre) leaves := by
    refine ⟨h2, ?_, ?_, ?_, ?_⟩
    · intro p hp
      cases hp
    · intro hw hwm
      cases hwm
    · intro hw hwm
      cases hwm
    · intro a ha
      cases ha
  obtain ⟨hCw, hWw⟩ := inv_walk pre leaves (wInit pre) hC0 hW0
  unfold writeWithHooks at he ⊢
  revert he
  generalize hq : wWalk (wInit pre) leaves = q
  rw [hq] at hCw hWw
  cases q with
  | failed e s =>
    intro _
    dsimp only
    exact ⟨hCw, rfl⟩
  | stuck s =>
    intro he
    dsimp only at he
    simp [isErrored] at he
  | cont s =>
    dsimp only
    have hCs : CoreOK pre s := hCw
    have hWs : WaitOK s [] := hWw s rfl
    have hepi := inv_epi pre s.waiting 0 s (fun hk h => h) hCs hWs
    generalize hq2 : wEpilogue s s.waiting 0 = q2
    rw [hq2] at hepi
    cases q2 with
    | failed e s2 =>
      intro _
      dsimp only
      exact ⟨hepi e s2 rfl, rfl⟩
    | stuck s2 =>
      intro he
      dsimp only at he
      simp [isErrored] at he
    | cont s2 =>
      intro he
      dsimp only at he
      simp [isErrored] at he

/-- C1 (amended): for every WriteWithHooks call that returns an error,
the rollback deletes from the store exactly the digests recorded as
merkelizedPaths values — the digests written during the call; provided
the input tree's leaf paths are distinct, the pre-call store's keys are
duplicate-free, and no digest written during the call already existed
in the store before it, the store's object count after the failed call
equals its value before the call. -/
theorem c1_amended_rollback (pre : Store) (t : WTree)
    (h1 : (keysOf pre).Nodup)
    (h2 : ((wleaves t).map wleafPath).Nodup)
    (hfresh : ∀ k ∈ (writeWithHooksTree pre t).2.2.written, hasKey pre k = false)
    (he : isErrored (writeWithHooksTree pre t).1 = true) :
    objectCount (writeWithHooksTree pre t).2.1 = objectCount pre := by
  obtain ⟨hC, hroll⟩ := coreOK_run_errored pre (wleaves t) h1 h2 he
  have hroll' : (writeWithHooksTree pre t).2.1 =
      wRollback ((writeWithHooksTree pre t).2.2) := hroll
  rw [hroll']
  exact wRollback_count pre _ hC h1 hfresh

/-- Witness for the amended C1: on the empty pre-call store, the
failing example run satisfies every hypothesis concretely and the
object count is restored. -/
theorem c1_amended_witness :
    ((keysOf ([] : Store)).Nodup
      ∧ ((wleaves c1treeBad).map wleafPath).Nodup
      ∧ (∀ k ∈ (writeWithHooksTree [] c1treeBad).2.2.written,
          hasKey ([] : Store) k = false)
      ∧ isErrored (writeWithHooksTree [] c1treeBad).1 = true)
    ∧ objectCount (writeWithHooksTree [] c1treeBad).2.1 = objectCount ([] : Store) :=
  ⟨⟨by decide, by decide, by decide, by decide⟩,
    c1_amended_rollback [] c1treeBad (by decide) (by decide) (by decide) (by decide)⟩

/-- C1 as stated is false: the rollback deletes every merkelizedPaths
value, so when the pre-call store already holds an object at a digest
the failed run also writes (here the digest of the bytes `"foo"`), that
pre-existing object is deleted too and the object count after the
failed call drops below its pre-call value. -/
theorem c1_counterexample :
    isErrored (writeWithHooksTree c1preBad c1treeBad).1 = true
    ∧ objectCount (writeWithHooksTree c1preBad c1treeBad).2.1 ≠ objectCount c1preBad := by
  constructor
  · decide
  · decide
